import Mathlib

/-!
# generate-hardcube: rate assignment and trajectory sampling on the 3-cube

A shallow embedding of `Verify/generate-hardcube.c`.

Modelling conventions:

* C `double` values are rationals (`ℚ`); every value `drand48` returns is a
  rational `k / 2^48`, and the comparisons and the sums the program makes are
  taken exactly.
* `drand48` is a stream `rnd : Nat → ℚ` together with a position `pos` that a
  draw advances by one (`RND`).
* The C library `log` is a parameter `log : ℚ → ℚ`.
* A C array is a `List ℚ`; a read past its initialised part is the fault
  `Fault.badRead`, a read of a scalar that was never assigned is
  `Fault.uninitialised`.
* The files are lists of what was written to them, in order.
* Loops whose trip count is not fixed take fuel; `Fault.outOfFuel` is returned when
  the fuel is used up before the loop exits.
-/

namespace HardCube

/-! ## Constants and the random source -/

/-- Source: `#define _N 8`. -/
abbrev _N : Nat := 8

/-- The ways in which the model of a run can fail to produce a value: a read of an array
entry or of a scalar that was never written, or a loop that used up its fuel. -/
inductive Fault where
  | badRead
  | uninitialised
  | outOfFuel
  deriving DecidableEq

/-- Source: `#define RND drand48()`; returns the draw and the advanced position. -/
def RND (rnd : Nat → ℚ) (pos : Nat) : ℚ × Nat :=
  (rnd pos, pos + 1)

/-- Source: `expsample`, lines 9-12: `return -log(RND)/lambda;`. -/
def expsample (log : ℚ → ℚ) (rnd : Nat → ℚ) (pos : Nat) (lambda : ℚ) : ℚ × Nat :=
  (-(log (RND rnd pos).1) / lambda, (RND rnd pos).2)

/-- Source: `outputstr`, lines 14-27: appends one line to the file for `ref` in `0..7`,
and leaves the file as it is for every other `ref` (the `switch` has no default). -/
def outputstr (fp : List String) (ref : Int) : List String :=
  match ref with
  | 0 => fp ++ ["0 0 0\n"]
  | 1 => fp ++ ["0 0 1\n"]
  | 2 => fp ++ ["0 1 0\n"]
  | 3 => fp ++ ["0 1 1\n"]
  | 4 => fp ++ ["1 0 0\n"]
  | 5 => fp ++ ["1 0 1\n"]
  | 6 => fp ++ ["1 1 0\n"]
  | 7 => fp ++ ["1 1 1\n"]
  | _ => fp

/-! ## The program state -/

/-- Source: the variables of `main` (lines 31-47) that the model tracks, the position
in the `drand48` stream, and the contents of the three files and of standard output. -/
structure Machine where
  /-- position in the `drand48` stream -/
  pos : Nat
  /-- the array `double edges[_N*_N]` -/
  edges : List ℚ
  /-- the variable `int state` -/
  state : Nat
  /-- the variable `int oldstate`; `none` until first assigned -/
  oldstate : Option Nat
  /-- the variable `double tc` -/
  tc : ℚ
  /-- the variable `double samp1` -/
  samp1 : ℚ
  /-- the variable `double samp2` -/
  samp2 : ℚ
  /-- the variable `double oldsamp`; `none` until first assigned -/
  oldsamp : Option ℚ
  /-- lines written to `synth-hardcube.txt`: `i`, `j`, rate -/
  listing : List (Nat × Nat × ℚ)
  /-- lines written to `synth-hardcube-data.txt` -/
  fp : List String
  /-- values written to `synth-hardcube-time.txt` -/
  fptime : List ℚ
  /-- lines written to standard output: `n`, `state`, `tau` -/
  stdout : List (Nat × Nat × ℚ)

/-! ## Rate assignment (lines 51-78) -/

/-- Source: lines 51-58, the nested loops `edges[i*_N+j] = 0`. -/
def zeroEdges (edges : List ℚ) : List ℚ :=
  (List.range _N).foldl
    (fun e i => (List.range _N).foldl (fun e j => e.set (i * _N + j) 0) e) edges

/-- Source: lines 51-70: zero the matrix, then twelve assignments `edges[i*_N+j] = RND`,
in the order of the source. Returns the matrix and the stream position reached. The array
has `_N*_N` entries; what they hold before line 51 does not matter, since the loops of
lines 51-58 write every one of them. -/
def assignRates (rnd : Nat → ℚ) (pos : Nat) : List ℚ × Nat :=
  let e := zeroEdges (List.replicate (_N * _N) 0)
  let d := RND rnd pos;  let e := e.set (0 * _N + 1) d.1
  let d := RND rnd d.2;  let e := e.set (0 * _N + 2) d.1
  let d := RND rnd d.2;  let e := e.set (1 * _N + 3) d.1
  let d := RND rnd d.2;  let e := e.set (2 * _N + 3) d.1
  let d := RND rnd d.2;  let e := e.set (0 * _N + 4) d.1
  let d := RND rnd d.2;  let e := e.set (1 * _N + 5) d.1
  let d := RND rnd d.2;  let e := e.set (4 * _N + 5) d.1
  let d := RND rnd d.2;  let e := e.set (2 * _N + 6) d.1
  let d := RND rnd d.2;  let e := e.set (4 * _N + 6) d.1
  let d := RND rnd d.2;  let e := e.set (3 * _N + 7) d.1
  let d := RND rnd d.2;  let e := e.set (5 * _N + 7) d.1
  let d := RND rnd d.2;  let e := e.set (6 * _N + 7) d.1
  (e, d.2)

/-- Source: lines 72-78: one line `i j edges[i*_N+j]` for each `i`, then each `j`. -/
def writeListing (edges : List ℚ) : List (Nat × Nat × ℚ) :=
  (List.range _N).foldl
    (fun out i => (List.range _N).foldl
      (fun out j => out ++ [(i, j, edges.getD (i * _N + j) 0)]) out) []

/-! ## One trajectory (lines 85-120) -/

/-- Source: lines 85-87: `tc = 0; state = 0; samp1 = RND*2; samp2 = samp1+RND*5;`. -/
def initTrajectory (rnd : Nat → ℚ) (m : Machine) : Machine :=
  let d1 := RND rnd m.pos
  let d2 := RND rnd d1.2
  { m with tc := 0, state := 0, samp1 := d1.1 * 2, samp2 := d1.1 * 2 + d2.1 * 5, pos := d2.2 }

/-- Source: lines 91-97, one pass `j = 0..7` over the row of `state`; `acc` is the
initialised part of `cumsum` and the running `total`. -/
def accumulateFrom (edges : List ℚ) (state : Nat) :
    List Nat → List ℚ × ℚ → Except Fault (List ℚ × ℚ)
  | [], acc => .ok acc
  | j :: js, acc =>
    match edges.get? (state * _N + j) with
    | none => .error Fault.badRead
    | some chance =>
      accumulateFrom edges state js
        (acc.1 ++ [(if j = 0 then 0 else acc.1.getD (j - 1) 0) + chance], acc.2 + chance)

/-- Source: lines 91-97: `cumsum[0.._N-1]` and `total` for the current state. -/
def accumulate (edges : List ℚ) (state : Nat) : Except Fault (List ℚ × ℚ) :=
  accumulateFrom edges state (List.range _N) ([], 0)

/-- Source: line 117, `for(j = 0; cumsum[j]/total < r; j++);` scanning the
initialised entries of `cumsum` from index `j` on; running past them is a fault. -/
def scanFrom (total r : ℚ) : List ℚ → Nat → Except Fault Nat
  | [], _ => .error Fault.badRead
  | c :: cs, j => if c / total < r then scanFrom total r cs (j + 1) else .ok j

/-- Source: lines 98-99: the holding time, the sentinel `10000` when `total == 0`. -/
def holdingTime (log : ℚ → ℚ) (rnd : Nat → ℚ) (pos : Nat) (total : ℚ) : ℚ × Nat :=
  if total = 0 then (10000, pos) else expsample log rnd pos total

/-- Source: lines 101-106: the check of the first deadline. -/
def check1 (tau : ℚ) (m : Machine) : Machine :=
  if m.samp1 ≠ -1 ∧ m.tc + tau > m.samp1 then
    { m with oldstate := some m.state, oldsamp := some m.samp1, samp1 := -1 }
  else m

/-- Source: lines 107-113: the check of the second deadline, which writes the record. -/
def check2 (tau : ℚ) (m : Machine) : Except Fault Machine :=
  if m.samp2 ≠ -1 ∧ m.tc + tau > m.samp2 then
    match m.oldstate, m.oldsamp with
    | some os, some ot =>
      .ok { m with fp := outputstr (outputstr m.fp os) m.state,
                   fptime := m.fptime ++ [m.samp2 - ot],
                   samp2 := -1 }
    | _, _ => .error Fault.uninitialised
  else .ok m

/-- Source: lines 91-119, one iteration of the trajectory loop. The flag is `true`
when the iteration left the loop through `break` (line 115). -/
def body (log : ℚ → ℚ) (rnd : Nat → ℚ) (n : Nat) (m : Machine) :
    Except Fault (Machine × Bool) :=
  match accumulate m.edges m.state with
  | .error e => .error e
  | .ok (cumsum, total) =>
    let h := holdingTime log rnd m.pos total
    match check2 h.1 (check1 h.1 { m with pos := h.2 }) with
    | .error e => .error e
    | .ok m2 =>
      let m3 := { m2 with stdout := m2.stdout ++ [(n, m2.state, h.1)] }
      if total = 0 then .ok (m3, true)
      else
        let d := RND rnd m3.pos
        match scanFrom total d.1 cumsum 0 with
        | .error e => .error e
        | .ok j => .ok ({ m3 with state := j, tc := m3.tc + h.1, pos := d.2 }, false)

/-- Source: lines 89-120, `for(;tc < 10000;) { ... }`. -/
def loop (log : ℚ → ℚ) (rnd : Nat → ℚ) (n : Nat) : Nat → Machine → Except Fault Machine
  | 0, _ => .error Fault.outOfFuel
  | fuel + 1, m =>
    if m.tc < 10000 then
      match body log rnd n m with
      | .error e => .error e
      | .ok (m1, true) => .ok m1
      | .ok (m1, false) => loop log rnd n fuel m1
    else .ok m

/-- Source: lines 85-120, trajectory `n`. -/
def trajectory (log : ℚ → ℚ) (rnd : Nat → ℚ) (fuel n : Nat) (m : Machine) :
    Except Fault Machine :=
  loop log rnd n fuel (initTrajectory rnd m)

/-- Source: lines 83-121, trajectories `n, n+1, ..` (`count` of them), one after another. -/
def trajectories (log : ℚ → ℚ) (rnd : Nat → ℚ) (fuel : Nat) :
    Nat → Nat → Machine → Except Fault Machine
  | 0, _, m => .ok m
  | count + 1, n, m =>
    match trajectory log rnd fuel n m with
    | .error e => .error e
    | .ok m1 => trajectories log rnd fuel count (n + 1) m1

/-- Source: the state of `main` when the trajectory loop is entered (line 83): the
stream is at position 0 after `srand48(45)`, the rates are assigned and listed, the data
and time files are empty, `oldstate` and `oldsamp` are not assigned. The variables `tc`,
`state`, `samp1`, `samp2` are written by lines 85-87 before they are read. -/
def afterAssignment (rnd : Nat → ℚ) : Machine :=
  let a := assignRates rnd 0
  { pos := a.2, edges := a.1, state := 0, oldstate := none, tc := 0, samp1 := 0, samp2 := 0,
    oldsamp := none, listing := writeListing a.1, fp := [], fptime := [], stdout := [] }

/-- Source: `main`, lines 29-127. -/
def main (log : ℚ → ℚ) (rnd : Nat → ℚ) (fuel : Nat) : Except Fault Machine :=
  trajectories log rnd fuel 1000 0 (afterAssignment rnd)

/-! ## Vocabulary of the specification -/

/-- The number of set bits in the 3-bit representation of a node. -/
def popcount (i : Nat) : Nat := i % 2 + i / 2 % 2 + i / 4 % 2

/-- Node `j` is node `i` with exactly one additional bit of its 3-bit representation set. -/
def isCubeEdge (i j : Nat) : Prop :=
  ∃ b, b < 3 ∧ i / 2 ^ b % 2 = 0 ∧ j = i + 2 ^ b

instance (i j : Nat) : Decidable (isCubeEdge i j) := by
  unfold isCubeEdge; infer_instance

/-- The entry `edges[i*_N+j]` of a rate matrix, when the index is inside the array. -/
def entry (edges : List ℚ) (i j : Nat) : Option ℚ := edges.get? (i * _N + j)

/-- The index of the draw that lines 59-70 store at `edges[i*_N+j]`, counted from the
first draw of the assignment; 12 for a pair that is not assigned. -/
def drawIndex (i j : Nat) : Nat :=
  match i, j with
  | 0, 1 => 0 | 0, 2 => 1 | 1, 3 => 2 | 2, 3 => 3 | 0, 4 => 4 | 1, 5 => 5
  | 4, 5 => 6 | 2, 6 => 7 | 4, 6 => 8 | 3, 7 => 9 | 5, 7 => 10 | 6, 7 => 11
  | _, _ => 12

/-- The edge enumeration of section 3 of the specification. -/
def specOrder : List (Nat × Nat) :=
  [(0, 1), (0, 2), (0, 4), (1, 3), (1, 5), (2, 3), (2, 6), (4, 5), (4, 6), (3, 7), (5, 7), (6, 7)]

/-- The order in which lines 59-70 assign the edges. -/
def sourceOrder : List (Nat × Nat) :=
  [(0, 1), (0, 2), (1, 3), (2, 3), (0, 4), (1, 5), (4, 5), (2, 6), (4, 6), (3, 7), (5, 7), (6, 7)]

/-- Rate assignment gives the `k`-th draw (counted from 0) to the `k`-th edge of `order`,
for each of the twelve draws and every stream. -/
def AssignsInOrder (order : List (Nat × Nat)) : Prop :=
  ∀ (rnd : Nat → ℚ) (k : Nat), k < 12 →
    ∃ e, order.get? k = some e ∧ entry (afterAssignment rnd).edges e.1 e.2 = some (rnd k)

/-- The line `b2 b1 b0` of the 3-bit binary decomposition of `ref`, most significant
bit first. -/
def bitsLine (ref : Int) : String :=
  toString (ref / 4 % 2) ++ " " ++ toString (ref / 2 % 2) ++ " " ++ toString (ref % 2) ++ "\n"

/-- A stream used in examples: draw `k` is `(k + 1) / 16`. -/
def rampStream : Nat → ℚ := fun k => (k + 1) / 16

/-- The value `cumsum[j]` that lines 91-97 compute for the row of node `s`: the running
sum `0 + edges[s*_N+0] + ... + edges[s*_N+j]`, added in this order. The value of `total`
after the pass is `cum E s 7`, built by the same additions. -/
def cum (E : List ℚ) (s : Nat) : Nat → ℚ
  | 0 => 0 + E.getD (s * _N + 0) 0
  | j + 1 => cum E s j + E.getD (s * _N + (j + 1)) 0

/-- The holding time `tau` of the iteration that starts in `m` (lines 98-99). -/
def tauOf (log : ℚ → ℚ) (rnd : Nat → ℚ) (m : Machine) : ℚ :=
  (holdingTime log rnd m.pos (cum m.edges m.state 7)).1

/-- A rate matrix of the shape that rate assignment produces from draws that are not
negative: 64 entries, none negative, and zero outside the twelve cube edges. -/
structure CubeRates (E : List ℚ) : Prop where
  length_eq : E.length = 64
  nonneg : ∀ i j, i < 8 → j < 8 → 0 ≤ E.getD (i * _N + j) 0
  nonedge : ∀ i j, i < 8 → j < 8 → ¬ isCubeEdge i j → E.getD (i * _N + j) 0 = 0

/-- The machine at the head of the trajectory loop (line 89) after `k` complete iterations
from `m`, none of which left the loop; `none` when the loop has been left earlier or an
iteration failed. -/
def afterIters (log : ℚ → ℚ) (rnd : Nat → ℚ) (n : Nat) : Nat → Machine → Option Machine
  | 0, m => some m
  | k + 1, m =>
    if m.tc < 10000 then
      match body log rnd n m with
      | .ok (m1, false) => afterIters log rnd n k m1
      | _ => none
    else none

/-- Every value of the stream lies in `[0, 1)`, as the values of `drand48` do. -/
def UnitDraws (rnd : Nat → ℚ) : Prop := ∀ k, 0 ≤ rnd k ∧ rnd k < 1

/-- The logarithm is not positive on `[0, 1)`, so that the holding times `-log(u)/lambda`
with `lambda > 0` are not negative. -/
def LogNonpos (log : ℚ → ℚ) : Prop := ∀ u, 0 ≤ u → u < 1 → log u ≤ 0

/-- Every categorical draw (line 116) that the trajectory started in `init` consumes is
positive: at each loop head the trajectory reaches, if the iteration is entered and
`total` is not 0, the second draw of the iteration is positive. -/
def CategoricalPositive (log : ℚ → ℚ) (rnd : Nat → ℚ) (n : Nat) (init : Machine) : Prop :=
  ∀ k mk, afterIters log rnd n k init = some mk → mk.tc < 10000 →
    cum mk.edges mk.state 7 ≠ 0 → 0 < rnd (mk.pos + 1)

/-- The state of the record of a trajectory that started from `m0` with deadlines `t1`, `t2`,
seen at a machine `m` of that trajectory. `R` relates a node to the nodes that the trajectory
can be in later. Either no deadline is resolved, or the first is (at node `a`), or both are
(at nodes `a` and `b`) and the record is written. -/
structure TrajInv (R : Nat → Nat → Prop) (m0 : Machine) (t1 t2 : ℚ) (m : Machine) : Prop where
  edges_eq : m.edges = m0.edges
  listing_eq : m.listing = m0.listing
  state_lt : m.state < 8
  rel_state : R 0 m.state
  stage :
    (m.samp1 = t1 ∧ m.samp2 = t2 ∧ m.tc ≤ t1 ∧ m.fp = m0.fp ∧ m.fptime = m0.fptime) ∨
    (m.samp1 = -1 ∧ m.samp2 = t2 ∧ m.tc ≤ t2 ∧ m.fp = m0.fp ∧ m.fptime = m0.fptime ∧
      m.oldsamp = some t1 ∧ ∃ a, m.oldstate = some a ∧ a < 8 ∧ R 0 a ∧ R a m.state) ∨
    (m.samp1 = -1 ∧ m.samp2 = -1 ∧ ∃ a b, a < 8 ∧ b < 8 ∧ R 0 a ∧ R a b ∧ R b m.state ∧
      m.oldstate = some a ∧ m.oldsamp = some t1 ∧
      m.fp = outputstr (outputstr m0.fp a) b ∧ m.fptime = m0.fptime ++ [t2 - t1])

/-- Simulated time at a loop head: it is not negative, and a resolved deadline lies
strictly before it. -/
structure TimeInv (t1 t2 : ℚ) (m : Machine) : Prop where
  tc_nonneg : 0 ≤ m.tc
  resolved1 : m.samp1 = -1 → t1 < m.tc
  resolved2 : m.samp2 = -1 → t2 < m.tc

/-- A stream used in examples: every draw is `1/2`. -/
def halfStream : Nat → ℚ := fun _ => 1 / 2

/-- A stand-in for the logarithm used in examples: `u - 1`, which is not positive on
`[0, 1)` and vanishes at 1. -/
def linLog : ℚ → ℚ := fun u => u - 1

/-- The claim that a trajectory stops as soon as both deadlines are resolved: once a loop
head is reached at which the second deadline is resolved, the trajectory makes no further
transition and consumes no further draw, so the machine it returns has the position and
the node of that loop head. -/
def StopsWhenResolved (log : ℚ → ℚ) (rnd : Nat → ℚ) (n : Nat) (m0 : Machine) : Prop :=
  ∀ k mk, afterIters log rnd n k (initTrajectory rnd m0) = some mk → mk.samp2 = -1 →
    ∀ fuel mf, trajectory log rnd fuel n m0 = .ok mf → mf.pos = mk.pos ∧ mf.state = mk.state

/-- A stream used in examples: the two deadline draws of the first trajectory (positions 12
and 13) are 0, every other draw is `1/2`. -/
def earlyStream : Nat → ℚ := fun k => if k = 12 ∨ k = 13 then 0 else 1 / 2

/-- Source: lines 91-97 and 117 taken together: the node that line 117 selects from the
row of `state` for the categorical draw `r`. -/
def nextNode (E : List ℚ) (state : Nat) (r : ℚ) : Except Fault Nat :=
  match accumulate E state with
  | .error e => .error e
  | .ok (cumsum, total) => scanFrom total r cumsum 0

/-- The adjacency list of node `s`: the targets of its cube edges in increasing order,
each with its rate. -/
def outgoing (E : List ℚ) (s : Nat) : List (Nat × ℚ) :=
  ((List.range 8).filter (fun j => isCubeEdge s j)).map (fun j => (j, E.getD (s * _N + j) 0))

/-- The reference categorical selection: the smallest index `k` (counted from 0) such that
the sum of the first `k + 1` rates, divided by the sum of all rates, is at least `u`. -/
def refSelect (rates : List ℚ) (u : ℚ) : Option Nat :=
  (List.range rates.length).find? (fun k => u ≤ (rates.take (k + 1)).sum / rates.sum)

/-- The targets of the cube edges that leave node `s`, in increasing order. -/
def targetsOf : Nat → List Nat
  | 0 => [1, 2, 4] | 1 => [3, 5] | 2 => [3, 6] | 3 => [7]
  | 4 => [5, 6] | 5 => [7] | 6 => [7] | _ => []

/-- The claim that the two deadlines of a trajectory are strictly ordered, for every stream
of draws in `[0, 1)` and every machine the trajectory starts from. -/
def DeadlinesStrict : Prop :=
  ∀ (rnd : Nat → ℚ), UnitDraws rnd → ∀ m0 : Machine,
    (initTrajectory rnd m0).samp1 < (initTrajectory rnd m0).samp2

/-- Source: line 11, the argument of `log` in `expsample`: the draw `RND`, as it is. -/
def logArgument (rnd : Nat → ℚ) (pos : Nat) : ℚ := (RND rnd pos).1

/-- The claim that the argument of `log` in `expsample` is strictly positive for every
stream of draws in `[0, 1)`. -/
def LogArgumentPositive : Prop :=
  ∀ (rnd : Nat → ℚ), UnitDraws rnd → ∀ pos : Nat, 0 < logArgument rnd pos

/-- A stream used in examples: every draw is 0. -/
def zeroStream : Nat → ℚ := fun _ => 0

/-- All twelve rate draws are strictly positive. -/
def PositiveRates (rnd : Nat → ℚ) : Prop := ∀ k, k < 12 → 0 < rnd k

/-- The simulated time stays below 10000 at every loop head of the trajectory started in
`init`. -/
def TimeBelow (log : ℚ → ℚ) (rnd : Nat → ℚ) (n : Nat) (init : Machine) : Prop :=
  ∀ k mk, afterIters log rnd n k init = some mk → mk.tc < 10000

/-- Two machines at the same point of the same trajectory, run from the start machines `m0`
and `m0'`: they agree on the stream position, the rate matrix, the node, the time and the
deadlines, on `oldstate` and `oldsamp` once the first deadline is resolved, and on what the
trajectory has written to the data file and to the time file so far. -/
structure SameRun (m0 m0' m m' : Machine) : Prop where
  pos_eq : m.pos = m'.pos
  edges_eq : m.edges = m'.edges
  state_eq : m.state = m'.state
  tc_eq : m.tc = m'.tc
  samp1_eq : m.samp1 = m'.samp1
  samp2_eq : m.samp2 = m'.samp2
  old_eq : m.samp1 = -1 → m.oldstate = m'.oldstate ∧ m.oldsamp = m'.oldsamp
  out_eq : ∃ lines times, m.fp = m0.fp ++ lines ∧ m'.fp = m0'.fp ++ lines ∧
    m.fptime = m0.fptime ++ times ∧ m'.fptime = m0'.fptime ++ times

/-- A start machine used in examples: the state of `main` before the first trajectory of
`halfStream`, but with `oldstate`, `oldsamp` and the two files holding earlier values. -/
def staleStart : Machine :=
  { afterAssignment halfStream with
    oldstate := some 5, oldsamp := some 99, fp := ["1 0 1\n"], fptime := [42] }

/-! ## Rate assignment -/

theorem zeroEdges_replicate : zeroEdges (List.replicate (_N * _N) 0) = List.replicate 64 0 := by
  decide

theorem assignRates_eq (rnd : Nat → ℚ) (p : Nat) :
    assignRates rnd p =
      ([0, rnd p, rnd (p+1), 0, rnd (p+4), 0, 0, 0,
        0, 0, 0, rnd (p+2), 0, rnd (p+5), 0, 0,
        0, 0, 0, rnd (p+3), 0, 0, rnd (p+7), 0,
        0, 0, 0, 0, 0, 0, 0, rnd (p+9),
        0, 0, 0, 0, 0, rnd (p+6), rnd (p+8), 0,
        0, 0, 0, 0, 0, 0, 0, rnd (p+10),
        0, 0, 0, 0, 0, 0, 0, rnd (p+11),
        0, 0, 0, 0, 0, 0, 0, 0], p + 12) := by
  simp only [assignRates, zeroEdges_replicate, RND]
  rfl

theorem entry_nonedge (rnd : Nat → ℚ) (p : Nat) (i j : Fin 8) (h : ¬ isCubeEdge i j) :
    entry (assignRates rnd p).1 i j = some 0 := by
  rw [assignRates_eq]
  revert h
  fin_cases i <;> fin_cases j <;>
    first | (intro _; rfl) | (intro h; exact absurd (by decide) h)

theorem entry_edge (rnd : Nat → ℚ) (p : Nat) (i j : Fin 8) (h : isCubeEdge i j) :
    entry (assignRates rnd p).1 i j = some (rnd (p + drawIndex i j)) := by
  rw [assignRates_eq]
  revert h
  fin_cases i <;> fin_cases j <;>
    first | (intro _; rfl) | (intro h; exact absurd h (by decide))

theorem outputstr_in_range (fp : List String) (ref : Int) (h0 : 0 ≤ ref) (h7 : ref ≤ 7) :
    outputstr fp ref = fp ++ [bitsLine ref] := by
  interval_cases ref <;> rfl

theorem outputstr_out_of_range (fp : List String) (ref : Int) (h : ref < 0 ∨ 7 < ref) :
    outputstr fp ref = fp := by
  unfold outputstr
  split <;> first | omega | rfl

theorem bitsLine_inj (a b : Int) (ha0 : 0 ≤ a) (ha7 : a ≤ 7) (hb0 : 0 ≤ b) (hb7 : b ≤ 7)
    (h : bitsLine a = bitsLine b) : a = b := by
  interval_cases a <;> interval_cases b <;> first | rfl | (exact absurd h (by decide))

/-! ## One iteration of the trajectory loop -/

theorem get?_eq_getD {E : List ℚ} {k : Nat} (h : k < E.length) : E.get? k = some (E.getD k 0) := by
  simp [List.getD, List.getElem?_eq_getElem h]

theorem accumulate_ok (E : List ℚ) (s : Nat) (hlen : E.length = 64) (hs : s < 8) :
    accumulate E s = .ok ((List.range 8).map (cum E s), cum E s 7) := by
  have hg : ∀ j, j < 8 → E.get? (s * _N + j) = some (E.getD (s * _N + j) 0) := by
    intro j hj
    apply get?_eq_getD
    simp only [_N]; omega
  have h0 := hg 0 (by decide)
  simp only [accumulate, List.range_succ, List.range_zero, List.nil_append, List.cons_append,
    List.singleton_append]
  simp only [accumulateFrom, hg 0 (by decide), hg 1 (by decide), hg 2 (by decide),
    hg 3 (by decide), hg 4 (by decide), hg 5 (by decide), hg 6 (by decide), hg 7 (by decide)]
  simp [cum, List.getD]

theorem scanFrom_range' (T r : ℚ) (c : Nat → ℚ) (len j0 j : Nat) :
    scanFrom T r ((List.range' j0 len).map c) j0 = .ok j ↔
      j0 ≤ j ∧ j < j0 + len ∧ ¬ (c j / T < r) ∧ ∀ i, j0 ≤ i → i < j → c i / T < r := by
  induction len generalizing j0 with
  | zero =>
    simp only [List.range'_zero, List.map_nil, scanFrom]
    constructor
    · intro h; cases h
    · rintro ⟨h1, h2, _⟩; omega
  | succ len ih =>
    simp only [List.range'_succ, List.map_cons, scanFrom]
    by_cases hc : c j0 / T < r
    · rw [if_pos hc, ih]
      constructor
      · rintro ⟨h1, h2, h3, h4⟩
        refine ⟨by omega, by omega, h3, ?_⟩
        intro i hi hij
        rcases Nat.eq_or_lt_of_le hi with h | h
        · rw [← h]; exact hc
        · exact h4 i h hij
      · rintro ⟨h1, h2, h3, h4⟩
        have hne : j0 ≠ j := fun h => h3 (h ▸ hc)
        exact ⟨by omega, by omega, h3, fun i hi hij => h4 i (by omega) hij⟩
    · rw [if_neg hc]
      constructor
      · intro h
        have hj : j0 = j := by injection h
        subst hj
        exact ⟨le_refl _, by omega, hc, fun i hi hij => absurd hij (by omega)⟩
      · rintro ⟨h1, h2, h3, h4⟩
        rcases Nat.eq_or_lt_of_le h1 with h | h
        · rw [h]
        · exact absurd (h4 j0 (le_refl _) h) hc

theorem scanFrom_cum (T r : ℚ) (c : Nat → ℚ) (j : Nat) :
    scanFrom T r ((List.range 8).map c) 0 = .ok j ↔
      j < 8 ∧ ¬ (c j / T < r) ∧ ∀ i, i < j → c i / T < r := by
  rw [List.range_eq_range', scanFrom_range']
  simp

theorem scanFrom_exists (T r : ℚ) (c : Nat → ℚ) (h : ¬ (c 7 / T < r)) :
    ∃ j, scanFrom T r ((List.range 8).map c) 0 = .ok j := by
  classical
  have hex : ∃ j, ¬ (c j / T < r) := ⟨7, h⟩
  refine ⟨Nat.find hex, (scanFrom_cum T r c _).2 ⟨?_, Nat.find_spec hex, ?_⟩⟩
  · have := Nat.find_min' hex h
    omega
  · intro i hi
    by_contra hcon
    exact absurd (Nat.find_min' hex hcon) (by omega)


theorem body_spec (log : ℚ → ℚ) (rnd : Nat → ℚ) (n : Nat) (m m1 : Machine) (brk : Bool)
    (hlen : m.edges.length = 64) (hs : m.state < 8)
    (h : body log rnd n m = .ok (m1, brk)) :
    m1.edges = m.edges ∧ m1.listing = m.listing ∧
    m1.stdout = m.stdout ++ [(n, m.state, tauOf log rnd m)] ∧
    m1.samp1 = (if m.samp1 ≠ -1 ∧ m.tc + tauOf log rnd m > m.samp1 then -1 else m.samp1) ∧
    m1.samp2 = (if m.samp2 ≠ -1 ∧ m.tc + tauOf log rnd m > m.samp2 then -1 else m.samp2) ∧
    m1.oldstate = (if m.samp1 ≠ -1 ∧ m.tc + tauOf log rnd m > m.samp1 then some m.state
      else m.oldstate) ∧
    m1.oldsamp = (if m.samp1 ≠ -1 ∧ m.tc + tauOf log rnd m > m.samp1 then some m.samp1
      else m.oldsamp) ∧
    (m.samp2 ≠ -1 ∧ m.tc + tauOf log rnd m > m.samp2 →
      ∃ os ot, m1.oldstate = some os ∧ m1.oldsamp = some ot ∧
        m1.fp = outputstr (outputstr m.fp os) m.state ∧ m1.fptime = m.fptime ++ [m.samp2 - ot]) ∧
    (¬ (m.samp2 ≠ -1 ∧ m.tc + tauOf log rnd m > m.samp2) →
      m1.fp = m.fp ∧ m1.fptime = m.fptime) ∧
    (cum m.edges m.state 7 = 0 →
      brk = true ∧ m1.state = m.state ∧ m1.tc = m.tc ∧ m1.pos = m.pos) ∧
    (cum m.edges m.state 7 ≠ 0 →
      brk = false ∧ m1.tc = m.tc + tauOf log rnd m ∧ m1.pos = m.pos + 2 ∧
      scanFrom (cum m.edges m.state 7) (rnd (m.pos + 1))
        ((List.range 8).map (cum m.edges m.state)) 0 = .ok m1.state) := by
  unfold body at h
  rw [accumulate_ok _ _ hlen hs] at h
  have h1 : (holdingTime log rnd m.pos (cum m.edges m.state 7)).1 = tauOf log rnd m := rfl
  have h2 : (holdingTime log rnd m.pos (cum m.edges m.state 7)).2
      = if cum m.edges m.state 7 = 0 then m.pos else m.pos + 1 := by
    unfold holdingTime expsample RND; split_ifs <;> rfl
  simp only [h1, h2] at h
  clear h1 h2
  generalize tauOf log rnd m = tau at h ⊢
  generalize cum m.edges m.state 7 = T at h ⊢
  generalize List.map (cum m.edges m.state) (List.range 8) = cs at h ⊢
  have hfin : ∀ (m2 : Machine),
      m2.edges = m.edges → m2.listing = m.listing → m2.stdout = m.stdout → m2.state = m.state →
      m2.tc = m.tc → m2.pos = (if T = 0 then m.pos else m.pos + 1) →
      (if T = 0 then
        Except.ok ({ m2 with stdout := m2.stdout ++ [(n, m2.state, tau)] }, true)
      else
        match scanFrom T (RND rnd m2.pos).1 cs 0 with
        | Except.error e => Except.error e
        | Except.ok j =>
          Except.ok ({ m2 with stdout := m2.stdout ++ [(n, m2.state, tau)], state := j,
                                tc := m2.tc + tau, pos := (RND rnd m2.pos).2 }, false))
        = Except.ok (m1, brk) →
      m1.edges = m.edges ∧ m1.listing = m.listing ∧ m1.stdout = m.stdout ++ [(n, m.state, tau)] ∧
      m1.samp1 = m2.samp1 ∧ m1.samp2 = m2.samp2 ∧ m1.oldstate = m2.oldstate ∧
      m1.oldsamp = m2.oldsamp ∧ m1.fp = m2.fp ∧ m1.fptime = m2.fptime ∧
      (T = 0 → brk = true ∧ m1.state = m.state ∧ m1.tc = m.tc ∧ m1.pos = m.pos) ∧
      (T ≠ 0 → brk = false ∧ m1.tc = m.tc + tau ∧ m1.pos = m.pos + 2 ∧
        scanFrom T (rnd (m.pos + 1)) cs 0 = .ok m1.state) := by
    intro m2 e1 e2 e3 e4 e5 e6 hh
    by_cases hT : T = 0
    · simp only [hT, if_true] at hh e6
      cases hh
      simp [e1, e2, e3, e4, e5, e6, hT]
    · simp only [hT, if_false, RND] at hh e6
      cases hsc : scanFrom T (rnd m2.pos) cs 0 with
      | error e => rw [hsc] at hh; cases hh
      | ok j =>
        rw [hsc] at hh
        cases hh
        rw [e6] at hsc
        simp [e1, e2, e3, e4, e5, e6, hT, hsc]
  generalize hP : (if T = 0 then m.pos else m.pos + 1) = P at h hfin
  by_cases c1 : m.samp1 ≠ -1 ∧ m.tc + tau > m.samp1
  · let mB : Machine :=
      { m with pos := P, oldstate := some m.state, oldsamp := some m.samp1, samp1 := -1 }
    have hc1 : check1 tau { m with pos := P } = mB := if_pos c1
    rw [hc1] at h
    by_cases c2 : m.samp2 ≠ -1 ∧ m.tc + tau > m.samp2
    · let mC : Machine :=
        { mB with fp := outputstr (outputstr m.fp m.state) m.state,
                  fptime := m.fptime ++ [m.samp2 - m.samp1], samp2 := -1 }
      have hc2 : check2 tau mB = .ok mC := if_pos c2
      rw [hc2] at h
      obtain ⟨e1, e2, e3, e4, e5, e6, e7, e8, e9, e10, e11⟩ := hfin mC rfl rfl rfl rfl rfl rfl h
      refine ⟨e1, e2, e3, ?_, ?_, ?_, ?_, ?_, ?_, e10, e11⟩
      · rw [if_pos c1]; exact e4
      · rw [if_pos c2]; exact e5
      · rw [if_pos c1]; exact e6
      · rw [if_pos c1]; exact e7
      · intro _; exact ⟨_, _, e6, e7, e8, e9⟩
      · intro hc; exact absurd c2 hc
    · have hc2 : check2 tau mB = .ok mB := if_neg c2
      rw [hc2] at h
      obtain ⟨e1, e2, e3, e4, e5, e6, e7, e8, e9, e10, e11⟩ := hfin mB rfl rfl rfl rfl rfl rfl h
      refine ⟨e1, e2, e3, ?_, ?_, ?_, ?_, ?_, ?_, e10, e11⟩
      · rw [if_pos c1]; exact e4
      · rw [if_neg c2]; exact e5
      · rw [if_pos c1]; exact e6
      · rw [if_pos c1]; exact e7
      · intro hc; exact absurd hc c2
      · intro _; exact ⟨e8, e9⟩
  · have hc1 : check1 tau { m with pos := P } = { m with pos := P } := if_neg c1
    rw [hc1] at h
    by_cases c2 : m.samp2 ≠ -1 ∧ m.tc + tau > m.samp2
    · rcases ho : m.oldstate with _ | os
      · have hc2 : check2 tau { m with pos := P } = .error Fault.uninitialised := by
          unfold check2; rw [if_pos c2]; simp only [ho]
        rw [hc2] at h; cases h
      rcases hp : m.oldsamp with _ | ot
      · have hc2 : check2 tau { m with pos := P } = .error Fault.uninitialised := by
          unfold check2; rw [if_pos c2]; simp only [ho, hp]
        rw [hc2] at h; cases h
      let mC : Machine :=
        { m with pos := P, fp := outputstr (outputstr m.fp os) m.state,
                 fptime := m.fptime ++ [m.samp2 - ot], samp2 := -1 }
      have hc2 : check2 tau { m with pos := P } = .ok mC := by
        unfold check2; rw [if_pos c2]; simp only [mC, ho, hp]
      rw [hc2] at h
      obtain ⟨e1, e2, e3, e4, e5, e6, e7, e8, e9, e10, e11⟩ := hfin mC rfl rfl rfl rfl rfl rfl h
      refine ⟨e1, e2, e3, ?_, ?_, ?_, ?_, ?_, ?_, e10, e11⟩
      · rw [if_neg c1]; exact e4
      · rw [if_pos c2]; exact e5
      · rw [if_neg c1]; exact e6.trans ho
      · rw [if_neg c1]; exact e7.trans hp
      · intro _; exact ⟨os, ot, e6.trans ho, e7.trans hp, e8, e9⟩
      · intro hc; exact absurd c2 hc
    · have hc2 : check2 tau { m with pos := P } = .ok { m with pos := P } := if_neg c2
      rw [hc2] at h
      obtain ⟨e1, e2, e3, e4, e5, e6, e7, e8, e9, e10, e11⟩ := hfin { m with pos := P } rfl rfl rfl rfl rfl rfl h
      refine ⟨e1, e2, e3, ?_, ?_, ?_, ?_, ?_, ?_, e10, e11⟩
      · rw [if_neg c1]; exact e4
      · rw [if_neg c2]; exact e5
      · rw [if_neg c1]; exact e6
      · rw [if_neg c1]; exact e7
      · intro hc; exact absurd hc c2
      · intro _; exact ⟨e8, e9⟩

theorem cubeRates_assignRates (rnd : Nat → ℚ) (p : Nat) (h : ∀ k, k < 12 → 0 ≤ rnd (p + k)) :
    CubeRates (assignRates rnd p).1 := by
  have key : ∀ i j : Fin 8, (assignRates rnd p).1.getD ((i : Nat) * _N + j) 0 =
      if isCubeEdge i j then rnd (p + drawIndex i j) else 0 := by
    intro i j
    by_cases hc : isCubeEdge i j
    · have := entry_edge rnd p i j hc
      unfold entry at this
      rw [if_pos hc, List.getD, this]; rfl
    · have := entry_nonedge rnd p i j hc
      unfold entry at this
      rw [if_neg hc, List.getD, this]; rfl
  refine ⟨by rw [assignRates_eq]; rfl, ?_, ?_⟩
  · intro i j hi hj
    have := key ⟨i, hi⟩ ⟨j, hj⟩
    simp only at this
    rw [this]
    split_ifs with hc
    · apply h
      revert hc
      have : ∀ i j : Fin 8, isCubeEdge i j → drawIndex i j < 12 := by decide
      exact this ⟨i, hi⟩ ⟨j, hj⟩
    · exact le_refl _
  · intro i j hi hj hc
    have := key ⟨i, hi⟩ ⟨j, hj⟩
    simp only at this
    rw [this, if_neg hc]

theorem cum_mono {E : List ℚ} (hE : CubeRates E) {s : Nat} (hs : s < 8) :
    ∀ j, j < 7 → cum E s j ≤ cum E s (j + 1) := by
  intro j hj
  have := hE.nonneg s (j + 1) hs (by omega)
  simp only [cum]
  linarith

theorem cum_zero {E : List ℚ} (hE : CubeRates E) {s : Nat} (hs : s < 8) : cum E s 0 = 0 := by
  have h0 : ¬ isCubeEdge s 0 := by
    rintro ⟨b, _, _, hb⟩
    have : 0 < 2 ^ b := Nat.pos_pow_of_pos b (by decide)
    omega
  have := hE.nonedge s 0 hs (by decide) h0
  have h2 : E.getD (s * _N) 0 = 0 := this
  simp only [cum, add_zero, h2]

theorem cum_nonneg {E : List ℚ} (hE : CubeRates E) {s : Nat} (hs : s < 8) :
    ∀ j, j < 8 → 0 ≤ cum E s j := by
  intro j
  induction j with
  | zero => intro _; rw [cum_zero hE hs]
  | succ j ih =>
    intro hj
    exact le_trans (ih (by omega)) (cum_mono hE hs j (by omega))

theorem cum_seven_row7 {E : List ℚ} (hE : CubeRates E) : cum E 7 7 = 0 := by
  have h : ∀ j, j < 8 → E.getD (7 * _N + j) 0 = 0 := by
    intro j hj
    apply hE.nonedge 7 j (by decide) hj
    rintro ⟨b, hb, h1, _⟩
    interval_cases b <;> simp at h1
  have h0 : E.getD (7 * _N) 0 = 0 := h 0 (by decide)
  simp only [cum, h0, h 1 (by decide), h 2 (by decide), h 3 (by decide),
    h 4 (by decide), h 5 (by decide), h 6 (by decide), h 7 (by decide), add_zero]

/-- What the scan of line 117 selects from the row of a node. -/
theorem scan_selects {E : List ℚ} (hE : CubeRates E) {s : Nat} (hs : s < 8) (r : ℚ) (j : Nat)
    (h : scanFrom (cum E s 7) r ((List.range 8).map (cum E s)) 0 = .ok j) :
    j < 8 ∧ (r ≤ 0 → j = 0) ∧ (0 < r → cum E s 7 ≠ 0 → isCubeEdge s j ∧ 0 < E.getD (s * _N + j) 0) := by
  obtain ⟨hj, hnot, hall⟩ := (scanFrom_cum _ _ _ _).1 h
  have hT0 : 0 ≤ cum E s 7 := cum_nonneg hE hs 7 (by decide)
  refine ⟨hj, ?_, ?_⟩
  · intro hr
    by_contra hne
    have := hall 0 (Nat.pos_of_ne_zero hne)
    rw [cum_zero hE hs, zero_div] at this
    linarith
  · intro hr hT
    have hTpos : 0 < cum E s 7 := lt_of_le_of_ne hT0 (Ne.symm hT)
    have hpos : 0 < E.getD (s * _N + j) 0 := by
      rcases Nat.eq_zero_or_pos j with h0 | h0
      · exfalso
        apply hnot
        rw [h0, cum_zero hE hs, zero_div]
        exact hr
      · obtain ⟨i, rfl⟩ : ∃ i, j = i + 1 := ⟨j - 1, by omega⟩
        have h1 := hall i (by omega)
        have h2 : r ≤ cum E s (i + 1) / cum E s 7 := not_lt.1 hnot
        have h3 : cum E s i / cum E s 7 < cum E s (i + 1) / cum E s 7 := lt_of_lt_of_le h1 h2
        have h4 : cum E s i < cum E s (i + 1) := by
          rwa [div_lt_div_iff_of_pos_right hTpos] at h3
        simp only [cum] at h4
        linarith
    refine ⟨?_, hpos⟩
    by_contra hc
    have := hE.nonedge s j hs hj hc
    linarith

/-- The scan of line 117 stops inside `cumsum[0..7]` when `r < 1`. -/
theorem scan_finds (E : List ℚ) (s : Nat) (r : ℚ) (hT : cum E s 7 ≠ 0) (hr : r < 1) :
    ∃ j, scanFrom (cum E s 7) r ((List.range 8).map (cum E s)) 0 = .ok j := by
  apply scanFrom_exists
  rw [div_self hT]
  exact not_lt.2 (le_of_lt hr)

/-- An iteration produces a machine when the rate matrix has 64 entries, the node is in
range, `oldstate` and `oldsamp` are assigned once the first deadline is resolved, and the
categorical draw is below 1. -/
theorem body_ok (log : ℚ → ℚ) (rnd : Nat → ℚ) (n : Nat) (m : Machine)
    (hlen : m.edges.length = 64) (hs : m.state < 8)
    (hold : m.samp1 = -1 → ∃ os ot, m.oldstate = some os ∧ m.oldsamp = some ot)
    (hord : m.samp1 ≠ -1 → m.samp1 ≤ m.samp2)
    (hr : cum m.edges m.state 7 ≠ 0 → rnd (m.pos + 1) < 1) :
    ∃ m1 brk, body log rnd n m = .ok (m1, brk) := by
  unfold body
  rw [accumulate_ok _ _ hlen hs]
  have h1 : (holdingTime log rnd m.pos (cum m.edges m.state 7)).1 = tauOf log rnd m := rfl
  have h2 : (holdingTime log rnd m.pos (cum m.edges m.state 7)).2
      = if cum m.edges m.state 7 = 0 then m.pos else m.pos + 1 := by
    unfold holdingTime expsample RND; split_ifs <;> rfl
  simp only [h1, h2]
  clear h1 h2
  generalize tauOf log rnd m = tau
  have hfin : ∀ (m2 : Machine), m2.pos = (if cum m.edges m.state 7 = 0 then m.pos else m.pos + 1) →
      ∃ m1 brk, (if cum m.edges m.state 7 = 0 then
        Except.ok ({ m2 with stdout := m2.stdout ++ [(n, m2.state, tau)] }, true)
      else
        match scanFrom (cum m.edges m.state 7) (RND rnd m2.pos).1
            ((List.range 8).map (cum m.edges m.state)) 0 with
        | Except.error e => Except.error e
        | Except.ok j =>
          Except.ok ({ m2 with stdout := m2.stdout ++ [(n, m2.state, tau)], state := j,
                                tc := m2.tc + tau, pos := (RND rnd m2.pos).2 }, false))
        = Except.ok (m1, brk) := by
    intro m2 e6
    by_cases hT : cum m.edges m.state 7 = 0
    · rw [if_pos hT]; exact ⟨_, _, rfl⟩
    · rw [if_neg hT]
      rw [if_neg hT] at e6
      obtain ⟨j, hj⟩ := scan_finds m.edges m.state _ hT (hr hT)
      simp only [RND, e6, hj]
      exact ⟨_, _, rfl⟩
  generalize hP : (if cum m.edges m.state 7 = 0 then m.pos else m.pos + 1) = P at hfin
  by_cases c1 : m.samp1 ≠ -1 ∧ m.tc + tau > m.samp1
  · let mB : Machine :=
      { m with pos := P, oldstate := some m.state, oldsamp := some m.samp1, samp1 := -1 }
    have hc1 : check1 tau { m with pos := P } = mB := if_pos c1
    rw [hc1]
    by_cases c2 : m.samp2 ≠ -1 ∧ m.tc + tau > m.samp2
    · let mC : Machine :=
        { mB with fp := outputstr (outputstr m.fp m.state) m.state,
                  fptime := m.fptime ++ [m.samp2 - m.samp1], samp2 := -1 }
      have hc2 : check2 tau mB = .ok mC := if_pos c2
      rw [hc2]
      exact hfin mC rfl
    · have hc2 : check2 tau mB = .ok mB := if_neg c2
      rw [hc2]
      exact hfin mB rfl
  · have hc1 : check1 tau { m with pos := P } = { m with pos := P } := if_neg c1
    rw [hc1]
    by_cases c2 : m.samp2 ≠ -1 ∧ m.tc + tau > m.samp2
    · have hs1 : m.samp1 = -1 := by
        by_contra hne
        exact c1 ⟨hne, lt_of_le_of_lt (hord hne) c2.2⟩
      obtain ⟨os, ot, ho, hp⟩ := hold hs1
      let mC : Machine :=
        { m with pos := P, fp := outputstr (outputstr m.fp os) m.state,
                 fptime := m.fptime ++ [m.samp2 - ot], samp2 := -1 }
      have hc2 : check2 tau { m with pos := P } = .ok mC := by
        unfold check2; rw [if_pos c2]; simp only [mC, ho, hp]
      rw [hc2]
      exact hfin mC rfl
    · have hc2 : check2 tau { m with pos := P } = .ok { m with pos := P } := if_neg c2
      rw [hc2]
      exact hfin _ rfl

/-! ## The trajectory loop -/

theorem afterIters_succ_iff (log : ℚ → ℚ) (rnd : Nat → ℚ) (n k : Nat) (m m2 : Machine) :
    afterIters log rnd n (k + 1) m = some m2 ↔
      ∃ mk, afterIters log rnd n k m = some mk ∧ mk.tc < 10000 ∧
        body log rnd n mk = .ok (m2, false) := by
  induction k generalizing m with
  | zero =>
    simp only [afterIters]
    constructor
    · intro h
      split_ifs at h with hg
      split at h
      · rename_i m1 hb
        refine ⟨m, rfl, hg, ?_⟩
        rw [hb]; cases h; rfl
      · cases h
    · rintro ⟨mk, hmk, hg, hb⟩
      cases hmk
      rw [if_pos hg, hb]
  | succ k ih =>
    rw [afterIters]
    constructor
    · intro h
      split_ifs at h with hg
      split at h
      · rename_i m1 hb
        obtain ⟨mk, h1, h2, h3⟩ := (ih m1).1 h
        refine ⟨mk, ?_, h2, h3⟩
        rw [afterIters, if_pos hg, hb]
        exact h1
      · cases h
    · rintro ⟨mk, hmk, hg2, hb2⟩
      rw [afterIters] at hmk
      split_ifs at hmk with hg
      split at hmk
      · rename_i m1 hb
        rw [if_pos hg]
        exact (ih m1).2 ⟨mk, hmk, hg2, hb2⟩
      · cases hmk

/-- The result of the loop: the machine at some loop head whose guard fails, or the result of
an iteration, started at a loop head, that leaves through `break`. -/
theorem loop_ok_iff (log : ℚ → ℚ) (rnd : Nat → ℚ) (n fuel : Nat) (m mf : Machine) :
    loop log rnd n fuel m = .ok mf ↔
      ∃ k mk, k < fuel ∧ afterIters log rnd n k m = some mk ∧
        ((¬ mk.tc < 10000 ∧ mf = mk) ∨
          (mk.tc < 10000 ∧ body log rnd n mk = .ok (mf, true))) := by
  induction fuel generalizing m with
  | zero => simp [loop]
  | succ fuel ih =>
    rw [loop]
    by_cases hg : m.tc < 10000
    · rw [if_pos hg]
      cases hb : body log rnd n m with
      | error e =>
        simp only []
        constructor
        · intro h; cases h
        · rintro ⟨k, mk, hk, hmk, hcase⟩
          cases k with
          | zero =>
            cases hmk
            rcases hcase with ⟨h1, _⟩ | ⟨_, h2⟩
            · exact absurd hg h1
            · rw [hb] at h2; cases h2
          | succ k =>
            rw [afterIters, if_pos hg, hb] at hmk
            cases hmk
      | ok res =>
        obtain ⟨m1, brk⟩ := res
        cases brk with
        | true =>
          simp only []
          constructor
          · intro h
            cases h
            exact ⟨0, m, Nat.succ_pos _, rfl, Or.inr ⟨hg, hb⟩⟩
          · rintro ⟨k, mk, hk, hmk, hcase⟩
            cases k with
            | zero =>
              cases hmk
              rcases hcase with ⟨h1, _⟩ | ⟨_, h2⟩
              · exact absurd hg h1
              · rw [hb] at h2; cases h2; rfl
            | succ k =>
              rw [afterIters, if_pos hg, hb] at hmk
              cases hmk
        | false =>
          simp only []
          rw [ih]
          constructor
          · rintro ⟨k, mk, hk, hmk, hcase⟩
            refine ⟨k + 1, mk, by omega, ?_, hcase⟩
            rw [afterIters, if_pos hg, hb]
            exact hmk
          · rintro ⟨k, mk, hk, hmk, hcase⟩
            cases k with
            | zero =>
              cases hmk
              rcases hcase with ⟨h1, _⟩ | ⟨_, h2⟩
              · exact absurd hg h1
              · rw [hb] at h2; cases h2
            | succ k =>
              rw [afterIters, if_pos hg, hb] at hmk
              exact ⟨k, mk, by omega, hmk, hcase⟩
    · rw [if_neg hg]
      constructor
      · intro h
        cases h
        exact ⟨0, _, Nat.succ_pos _, rfl, Or.inl ⟨hg, rfl⟩⟩
      · rintro ⟨k, mk, hk, hmk, hcase⟩
        cases k with
        | zero =>
          simp only [afterIters, Option.some.injEq] at hmk
          subst hmk
          rcases hcase with ⟨_, h1⟩ | ⟨h2, _⟩
          · rw [h1]
          · exact absurd h2 hg
        | succ k =>
          rw [afterIters, if_neg hg] at hmk
          cases hmk

theorem body_state_lt (log : ℚ → ℚ) (rnd : Nat → ℚ) (n : Nat) (m m1 : Machine) (brk : Bool)
    (hlen : m.edges.length = 64) (hs : m.state < 8)
    (h : body log rnd n m = .ok (m1, brk)) : m1.state < 8 := by
  obtain ⟨_, _, _, _, _, _, _, _, _, h10, h11⟩ := body_spec log rnd n m m1 brk hlen hs h
  by_cases hT : cum m.edges m.state 7 = 0
  · rw [(h10 hT).2.1]; exact hs
  · exact ((scanFrom_cum _ _ _ _).1 (h11 hT).2.2.2).1

/-- One iteration keeps the record invariant. -/
theorem trajInv_step {R : Nat → Nat → Prop} (hrefl : ∀ a, R a a)
    (htrans : ∀ a b c, R a b → R b c → R a c)
    (log : ℚ → ℚ) (rnd : Nat → ℚ) (n : Nat) (m0 m m1 : Machine) (brk : Bool) (t1 t2 : ℚ)
    (ht1 : t1 ≠ -1) (ht2 : t2 ≠ -1) (h12 : t1 ≤ t2) (hlen : m0.edges.length = 64)
    (hinv : TrajInv R m0 t1 t2 m) (h : body log rnd n m = .ok (m1, brk))
    (hR : R m.state m1.state) : TrajInv R m0 t1 t2 m1 := by
  have hlen' : m.edges.length = 64 := by rw [hinv.edges_eq]; exact hlen
  have hs1 := body_state_lt log rnd n m m1 brk hlen' hinv.state_lt h
  obtain ⟨e1, e2, _, e4, e5, e6, e7, e8, e9, e10, e11⟩ :=
    body_spec log rnd n m m1 brk hlen' hinv.state_lt h
  have htc : m1.tc = m.tc ∨ m1.tc = m.tc + tauOf log rnd m := by
    by_cases hT : cum m.edges m.state 7 = 0
    · exact Or.inl (e10 hT).2.2.1
    · exact Or.inr (e11 hT).2.1
  refine ⟨e1.trans hinv.edges_eq, e2.trans hinv.listing_eq, hs1,
    htrans _ _ _ hinv.rel_state hR, ?_⟩
  generalize tauOf log rnd m = tau at *
  rcases hinv.stage with ⟨s1, s2, stc, sfp, sft⟩ | ⟨s1, s2, stc, sfp, sft, sos, a, soa, ha, r0a, ram⟩ |
      ⟨s1, s2, a, b, ha, hb, r0a, rab, rbm, soa, sos, sfp, sft⟩
  · -- no deadline resolved so far
    by_cases c1 : m.samp1 ≠ -1 ∧ m.tc + tau > m.samp1
    · rw [if_pos c1] at e4 e6 e7
      by_cases c2 : m.samp2 ≠ -1 ∧ m.tc + tau > m.samp2
      · rw [if_pos c2] at e5
        obtain ⟨os, ot, ho, hp, hfp, hft⟩ := e8 c2
        rw [e6] at ho; rw [e7] at hp
        cases ho; cases hp
        refine Or.inr (Or.inr ⟨e4, e5, m.state, m.state, hinv.state_lt, hinv.state_lt,
          hinv.rel_state, hrefl _, hR, e6, by rw [e7, s1], ?_, ?_⟩)
        · rw [hfp, sfp]
        · rw [hft, sft, s1, s2]
      · rw [if_neg c2] at e5
        obtain ⟨hfp, hft⟩ := e9 c2
        have hle : m.tc + tau ≤ t2 := by
          have : ¬ (m.tc + tau > m.samp2) := fun hc => c2 ⟨by rw [s2]; exact ht2, hc⟩
          rw [s2] at this; exact not_lt.1 this
        refine Or.inr (Or.inl ⟨e4, e5.trans s2, ?_, hfp.trans sfp, hft.trans sft,
          by rw [e7, s1], m.state, e6, hinv.state_lt, hinv.rel_state, hR⟩)
        rcases htc with h' | h'
        · rw [h']; exact le_trans stc h12
        · rw [h']; exact hle
    · rw [if_neg c1] at e4 e6 e7
      have hle : m.tc + tau ≤ t1 := by
        have : ¬ (m.tc + tau > m.samp1) := fun hc => c1 ⟨by rw [s1]; exact ht1, hc⟩
        rw [s1] at this; exact not_lt.1 this
      have c2 : ¬ (m.samp2 ≠ -1 ∧ m.tc + tau > m.samp2) := by
        rintro ⟨_, hc⟩
        rw [s2] at hc
        linarith
      rw [if_neg c2] at e5
      obtain ⟨hfp, hft⟩ := e9 c2
      refine Or.inl ⟨e4.trans s1, e5.trans s2, ?_, hfp.trans sfp, hft.trans sft⟩
      rcases htc with h' | h'
      · rw [h']; exact stc
      · rw [h']; exact hle
  · -- the first deadline is resolved
    have c1 : ¬ (m.samp1 ≠ -1 ∧ m.tc + tau > m.samp1) := fun hc => hc.1 s1
    rw [if_neg c1] at e4 e6 e7
    by_cases c2 : m.samp2 ≠ -1 ∧ m.tc + tau > m.samp2
    · rw [if_pos c2] at e5
      obtain ⟨os, ot, ho, hp, hfp, hft⟩ := e8 c2
      rw [e6, soa] at ho; rw [e7, sos] at hp
      cases ho; cases hp
      refine Or.inr (Or.inr ⟨e4.trans s1, e5, a, m.state, ha, hinv.state_lt, r0a, ram, hR,
        e6.trans soa, e7.trans sos, ?_, ?_⟩)
      · rw [hfp, sfp]
      · rw [hft, sft, s2]
    · rw [if_neg c2] at e5
      obtain ⟨hfp, hft⟩ := e9 c2
      have hle : m.tc + tau ≤ t2 := by
        have : ¬ (m.tc + tau > m.samp2) := fun hc => c2 ⟨by rw [s2]; exact ht2, hc⟩
        rw [s2] at this; exact not_lt.1 this
      refine Or.inr (Or.inl ⟨e4.trans s1, e5.trans s2, ?_, hfp.trans sfp, hft.trans sft,
        e7.trans sos, a, e6.trans soa, ha, r0a, htrans _ _ _ ram hR⟩)
      rcases htc with h' | h'
      · rw [h']; exact stc
      · rw [h']; exact hle
  · -- both deadlines are resolved
    have c1 : ¬ (m.samp1 ≠ -1 ∧ m.tc + tau > m.samp1) := fun hc => hc.1 s1
    have c2 : ¬ (m.samp2 ≠ -1 ∧ m.tc + tau > m.samp2) := fun hc => hc.1 s2
    rw [if_neg c1] at e4 e6 e7
    rw [if_neg c2] at e5
    obtain ⟨hfp, hft⟩ := e9 c2
    exact Or.inr (Or.inr ⟨e4.trans s1, e5.trans s2, a, b, ha, hb, r0a, rab,
      htrans _ _ _ rbm hR, e6.trans soa, e7.trans sos, hfp.trans sfp, hft.trans sft⟩)

/-- Induction along the loop heads of a trajectory. -/
theorem afterIters_induction (log : ℚ → ℚ) (rnd : Nat → ℚ) (n : Nat) (init : Machine)
    (P : Nat → Machine → Prop) (h0 : P 0 init)
    (hstep : ∀ k mk m1, afterIters log rnd n k init = some mk → P k mk → mk.tc < 10000 →
      body log rnd n mk = .ok (m1, false) → P (k + 1) m1) :
    ∀ k mk, afterIters log rnd n k init = some mk → P k mk := by
  intro k
  induction k with
  | zero =>
    intro mk h
    simp only [afterIters, Option.some.injEq] at h
    rw [← h]; exact h0
  | succ k ih =>
    intro m1 h
    obtain ⟨mk, hk, hg, hb⟩ := (afterIters_succ_iff log rnd n k init m1).1 h
    exact hstep k mk m1 hk (ih mk hk) hg hb

theorem initTrajectory_fields (rnd : Nat → ℚ) (m0 : Machine) :
    (initTrajectory rnd m0).edges = m0.edges ∧ (initTrajectory rnd m0).listing = m0.listing ∧
    (initTrajectory rnd m0).state = 0 ∧ (initTrajectory rnd m0).tc = 0 ∧
    (initTrajectory rnd m0).samp1 = rnd m0.pos * 2 ∧
    (initTrajectory rnd m0).samp2 = rnd m0.pos * 2 + rnd (m0.pos + 1) * 5 ∧
    (initTrajectory rnd m0).pos = m0.pos + 2 ∧
    (initTrajectory rnd m0).fp = m0.fp ∧ (initTrajectory rnd m0).fptime = m0.fptime ∧
    (initTrajectory rnd m0).stdout = m0.stdout ∧
    (initTrajectory rnd m0).oldstate = m0.oldstate ∧
    (initTrajectory rnd m0).oldsamp = m0.oldsamp :=
  ⟨rfl, rfl, rfl, rfl, rfl, rfl, rfl, rfl, rfl, rfl, rfl, rfl⟩

/-- The deadlines drawn at lines 86-87 from draws in `[0, 1)`. -/
theorem deadlines_bounds (rnd : Nat → ℚ) (hrnd : UnitDraws rnd) (m0 : Machine) :
    0 ≤ (initTrajectory rnd m0).samp1 ∧ (initTrajectory rnd m0).samp1 < 2 ∧
    (initTrajectory rnd m0).samp1 ≤ (initTrajectory rnd m0).samp2 ∧
    (initTrajectory rnd m0).samp2 < 7 ∧
    (initTrajectory rnd m0).samp1 ≠ -1 ∧ (initTrajectory rnd m0).samp2 ≠ -1 := by
  obtain ⟨_, _, _, _, e1, e2, _⟩ := initTrajectory_fields rnd m0
  rw [e1, e2]
  obtain ⟨a0, a1⟩ := hrnd m0.pos
  obtain ⟨b0, b1⟩ := hrnd (m0.pos + 1)
  refine ⟨by linarith, by linarith, by linarith, by linarith, ?_, ?_⟩
  · intro h; linarith
  · intro h; linarith

theorem trajInv_init {R : Nat → Nat → Prop} (hrefl : ∀ a, R a a) (rnd : Nat → ℚ)
    (hrnd : UnitDraws rnd) (m0 : Machine) :
    TrajInv R m0 (initTrajectory rnd m0).samp1 (initTrajectory rnd m0).samp2
      (initTrajectory rnd m0) := by
  refine ⟨rfl, rfl, Nat.succ_pos 7, hrefl 0, Or.inl ⟨rfl, rfl, ?_, rfl, rfl⟩⟩
  exact (deadlines_bounds rnd hrnd m0).1

theorem tauOf_nonneg (log : ℚ → ℚ) (rnd : Nat → ℚ) (hrnd : UnitDraws rnd) (hlog : LogNonpos log)
    (m : Machine) (hE : CubeRates m.edges) (hs : m.state < 8) : 0 ≤ tauOf log rnd m := by
  unfold tauOf holdingTime
  split_ifs with hT
  · norm_num
  · have hT0 : 0 ≤ cum m.edges m.state 7 := cum_nonneg hE hs 7 (by decide)
    have hl := hlog (rnd m.pos) (hrnd m.pos).1 (hrnd m.pos).2
    simp only [expsample, RND]
    apply div_nonneg _ hT0
    linarith

theorem tauOf_sentinel (log : ℚ → ℚ) (rnd : Nat → ℚ) (m : Machine)
    (hT : cum m.edges m.state 7 = 0) : tauOf log rnd m = 10000 := by
  unfold tauOf holdingTime
  rw [if_pos hT]

/-- One iteration that stays in the loop keeps the time invariant, when the holding time
is not negative. -/
theorem timeInv_step {R : Nat → Nat → Prop} (log : ℚ → ℚ) (rnd : Nat → ℚ) (n : Nat)
    (m0 m m1 : Machine) (t1 t2 : ℚ) (hlen : m0.edges.length = 64)
    (hinv : TrajInv R m0 t1 t2 m) (ht : TimeInv t1 t2 m) (htau : 0 ≤ tauOf log rnd m)
    (h : body log rnd n m = .ok (m1, false)) : TimeInv t1 t2 m1 := by
  have hlen' : m.edges.length = 64 := by rw [hinv.edges_eq]; exact hlen
  obtain ⟨_, _, _, e4, e5, _, _, _, _, e10, e11⟩ :=
    body_spec log rnd n m m1 false hlen' hinv.state_lt h
  have hT : cum m.edges m.state 7 ≠ 0 := fun hT => by
    have := (e10 hT).1
    cases this
  have htc : m1.tc = m.tc + tauOf log rnd m := (e11 hT).2.1
  refine ⟨by rw [htc]; linarith [ht.tc_nonneg], ?_, ?_⟩
  · intro hres
    rw [htc]
    by_cases c1 : m.samp1 ≠ -1 ∧ m.tc + tauOf log rnd m > m.samp1
    · have hs1 : m.samp1 = t1 := by
        rcases hinv.stage with ⟨s1, _⟩ | ⟨s1, _⟩ | ⟨s1, _⟩
        · exact s1
        · exact absurd s1 c1.1
        · exact absurd s1 c1.1
      rw [← hs1]; exact c1.2
    · rw [if_neg c1] at e4
      have := ht.resolved1 (e4.symm.trans hres)
      linarith
  · intro hres
    rw [htc]
    by_cases c2 : m.samp2 ≠ -1 ∧ m.tc + tauOf log rnd m > m.samp2
    · have hs2 : m.samp2 = t2 := by
        rcases hinv.stage with ⟨_, s2, _⟩ | ⟨_, s2, _⟩ | ⟨_, s2, _⟩
        · exact s2
        · exact s2
        · exact absurd s2 c2.1
      rw [← hs2]; exact c2.2
    · rw [if_neg c2] at e5
      have := ht.resolved2 (e5.symm.trans hres)
      linarith

theorem body_break_iff (log : ℚ → ℚ) (rnd : Nat → ℚ) (n : Nat) (m m1 : Machine) (brk : Bool)
    (hlen : m.edges.length = 64) (hs : m.state < 8)
    (h : body log rnd n m = .ok (m1, brk)) : brk = true ↔ cum m.edges m.state 7 = 0 := by
  obtain ⟨_, _, _, _, _, _, _, _, _, h10, h11⟩ := body_spec log rnd n m m1 brk hlen hs h
  constructor
  · intro hb
    by_contra hT
    rw [(h11 hT).1] at hb
    cases hb
  · intro hT
    exact (h10 hT).1

/-- The record invariant holds at every loop head of a trajectory. -/
theorem heads_inv {R : Nat → Nat → Prop} (hrefl : ∀ a, R a a)
    (htrans : ∀ a b c, R a b → R b c → R a c)
    (log : ℚ → ℚ) (rnd : Nat → ℚ) (hrnd : UnitDraws rnd) (n : Nat) (m0 : Machine)
    (hlen : m0.edges.length = 64)
    (hstepR : ∀ k mk m1, afterIters log rnd n k (initTrajectory rnd m0) = some mk →
      mk.tc < 10000 → body log rnd n mk = .ok (m1, false) → R mk.state m1.state) :
    ∀ k mk, afterIters log rnd n k (initTrajectory rnd m0) = some mk →
      TrajInv R m0 (initTrajectory rnd m0).samp1 (initTrajectory rnd m0).samp2 mk := by
  obtain ⟨_, _, h12, _, ht1, ht2⟩ := deadlines_bounds rnd hrnd m0
  apply afterIters_induction
  · exact trajInv_init hrefl rnd hrnd m0
  · intro k mk m1 hk hinv hg hb
    exact trajInv_step hrefl htrans log rnd n m0 mk m1 false _ _ ht1 ht2 h12 hlen hinv hb
      (hstepR k mk m1 hk hg hb)

/-- The record invariant holds for the machine the loop returns. -/
theorem final_inv {R : Nat → Nat → Prop} (hrefl : ∀ a, R a a)
    (htrans : ∀ a b c, R a b → R b c → R a c)
    (log : ℚ → ℚ) (rnd : Nat → ℚ) (hrnd : UnitDraws rnd) (n : Nat) (m0 : Machine)
    (hlen : m0.edges.length = 64)
    (hstepR : ∀ k mk m1, afterIters log rnd n k (initTrajectory rnd m0) = some mk →
      mk.tc < 10000 → body log rnd n mk = .ok (m1, false) → R mk.state m1.state)
    (fuel : Nat) (mf : Machine) (h : trajectory log rnd fuel n m0 = .ok mf) :
    TrajInv R m0 (initTrajectory rnd m0).samp1 (initTrajectory rnd m0).samp2 mf := by
  obtain ⟨_, _, h12, _, ht1, ht2⟩ := deadlines_bounds rnd hrnd m0
  obtain ⟨k, mk, _, hk, hcase⟩ := (loop_ok_iff log rnd n fuel _ mf).1 h
  have hinv := heads_inv hrefl htrans log rnd hrnd n m0 hlen hstepR k mk hk
  rcases hcase with ⟨_, rfl⟩ | ⟨_, hb⟩
  · exact hinv
  · have hlen' : mk.edges.length = 64 := by rw [hinv.edges_eq]; exact hlen
    have hT := (body_break_iff log rnd n mk mf true hlen' hinv.state_lt hb).1 rfl
    have hst := ((body_spec log rnd n mk mf true hlen' hinv.state_lt hb).2.2.2.2.2.2.2.2.2.1
      hT).2.1
    exact trajInv_step hrefl htrans log rnd n m0 mk mf true _ _ ht1 ht2 h12 hlen hinv hb
      (by rw [hst]; exact hrefl _)

/-- The time invariant holds at every loop head when holding times are not negative. -/
theorem heads_time (log : ℚ → ℚ) (rnd : Nat → ℚ) (hrnd : UnitDraws rnd) (hlog : LogNonpos log)
    (n : Nat) (m0 : Machine) (hE : CubeRates m0.edges) :
    ∀ k mk, afterIters log rnd n k (initTrajectory rnd m0) = some mk →
      TimeInv (initTrajectory rnd m0).samp1 (initTrajectory rnd m0).samp2 mk := by
  have hinv := heads_inv (R := fun _ _ => True) (fun _ => trivial) (fun _ _ _ _ _ => trivial)
    log rnd hrnd n m0 hE.length_eq (fun _ _ _ _ _ _ => trivial)
  obtain ⟨_, _, _, _, ht1, ht2⟩ := deadlines_bounds rnd hrnd m0
  apply afterIters_induction
  · exact ⟨le_refl _, fun h => absurd h ht1, fun h => absurd h ht2⟩
  · intro k mk m1 hk ht hg hb
    have hi := hinv k mk hk
    have hE' : CubeRates mk.edges := by rw [hi.edges_eq]; exact hE
    exact timeInv_step log rnd n m0 mk m1 _ _ hE.length_eq hi ht
      (tauOf_nonneg log rnd hrnd hlog mk hE' hi.state_lt) hb

/-- Each complete iteration consumes two draws. -/
theorem heads_pos (log : ℚ → ℚ) (rnd : Nat → ℚ) (hrnd : UnitDraws rnd) (n : Nat) (m0 : Machine)
    (hlen : m0.edges.length = 64) :
    ∀ k mk, afterIters log rnd n k (initTrajectory rnd m0) = some mk →
      mk.pos = m0.pos + 2 + 2 * k := by
  have hinv := heads_inv (R := fun _ _ => True) (fun _ => trivial) (fun _ _ _ _ _ => trivial)
    log rnd hrnd n m0 hlen (fun _ _ _ _ _ _ => trivial)
  apply afterIters_induction
  · rfl
  · intro k mk m1 hk hp hg hb
    have hi := hinv k mk hk
    have hlen' : mk.edges.length = 64 := by rw [hi.edges_eq]; exact hlen
    have hT : cum mk.edges mk.state 7 ≠ 0 := fun hT => by
      have := (body_break_iff log rnd n mk m1 false hlen' hi.state_lt hb).2 hT
      cases this
    have := ((body_spec log rnd n mk m1 false hlen' hi.state_lt hb).2.2.2.2.2.2.2.2.2.2 hT).2.2.1
    rw [this, hp]; ring

/-- An iteration is possible at every loop head the trajectory reaches. -/
theorem heads_body_ok (log : ℚ → ℚ) (rnd : Nat → ℚ) (hrnd : UnitDraws rnd) (n : Nat)
    (m0 : Machine) (hlen : m0.edges.length = 64) (k : Nat) (mk : Machine)
    (hk : afterIters log rnd n k (initTrajectory rnd m0) = some mk) :
    ∃ m1 brk, body log rnd n mk = .ok (m1, brk) := by
  have hi := heads_inv (R := fun _ _ => True) (fun _ => trivial) (fun _ _ _ _ _ => trivial)
    log rnd hrnd n m0 hlen (fun _ _ _ _ _ _ => trivial) k mk hk
  obtain ⟨_, _, h12, _, ht1, ht2⟩ := deadlines_bounds rnd hrnd m0
  have hlen' : mk.edges.length = 64 := by rw [hi.edges_eq]; exact hlen
  apply body_ok log rnd n mk hlen' hi.state_lt
  · intro hs1
    rcases hi.stage with ⟨s1, _⟩ | ⟨_, _, _, _, _, sos, a, soa, _⟩ |
        ⟨_, _, a, b, _, _, _, _, _, soa, sos, _⟩
    · exact absurd (s1.symm.trans hs1) ht1
    · exact ⟨a, _, soa, sos⟩
    · exact ⟨a, _, soa, sos⟩
  · intro hs1
    rcases hi.stage with ⟨s1, s2, _⟩ | ⟨s1, _⟩ | ⟨s1, _⟩
    · rw [s1, s2]; exact h12
    · exact absurd s1 hs1
    · exact absurd s1 hs1
  · intro _
    exact (hrnd _).2

/-- With positive categorical draws every transition follows a cube edge. -/
theorem step_cube_edge (log : ℚ → ℚ) (rnd : Nat → ℚ) (hrnd : UnitDraws rnd) (n : Nat)
    (m0 : Machine) (hE : CubeRates m0.edges)
    (hcat : CategoricalPositive log rnd n (initTrajectory rnd m0)) :
    ∀ k mk m1, afterIters log rnd n k (initTrajectory rnd m0) = some mk →
      mk.tc < 10000 → body log rnd n mk = .ok (m1, false) → isCubeEdge mk.state m1.state := by
  intro k mk m1 hk hg hb
  have hi := heads_inv (R := fun _ _ => True) (fun _ => trivial) (fun _ _ _ _ _ => trivial)
    log rnd hrnd n m0 hE.length_eq (fun _ _ _ _ _ _ => trivial) k mk hk
  have hE' : CubeRates mk.edges := by rw [hi.edges_eq]; exact hE
  have hT : cum mk.edges mk.state 7 ≠ 0 := fun hT => by
    have := (body_break_iff log rnd n mk m1 false hE'.length_eq hi.state_lt hb).2 hT
    cases this
  have hscan := ((body_spec log rnd n mk m1 false hE'.length_eq hi.state_lt
    hb).2.2.2.2.2.2.2.2.2.2 hT).2.2.2
  exact ((scan_selects hE' hi.state_lt _ _ hscan).2.2 (hcat k mk hk hg hT) hT).1

theorem cube_edge_popcount (i j : Nat) (hi : i < 8) (hj : j < 8) (h : isCubeEdge i j) :
    popcount j = popcount i + 1 := by
  have key : ∀ i j : Fin 8, isCubeEdge i j → popcount j = popcount i + 1 := by decide
  exact key ⟨i, hi⟩ ⟨j, hj⟩ h

theorem popcount_le (i : Nat) (hi : i < 8) : popcount i ≤ 3 := by
  have key : ∀ i : Fin 8, popcount i ≤ 3 := by decide
  exact key ⟨i, hi⟩

/-- With positive categorical draws the node at the `k`-th loop head has popcount `k`. -/
theorem heads_popcount (log : ℚ → ℚ) (rnd : Nat → ℚ) (hrnd : UnitDraws rnd) (n : Nat)
    (m0 : Machine) (hE : CubeRates m0.edges)
    (hcat : CategoricalPositive log rnd n (initTrajectory rnd m0)) :
    ∀ k mk, afterIters log rnd n k (initTrajectory rnd m0) = some mk →
      popcount mk.state = k := by
  have hinv := heads_inv (R := fun _ _ => True) (fun _ => trivial) (fun _ _ _ _ _ => trivial)
    log rnd hrnd n m0 hE.length_eq (fun _ _ _ _ _ _ => trivial)
  apply afterIters_induction
  · show popcount 0 = 0
    decide
  · intro k mk m1 hk hp hg hb
    have hi := hinv k mk hk
    have hlen' : mk.edges.length = 64 := by rw [hi.edges_eq]; exact hE.length_eq
    have he := step_cube_edge log rnd hrnd n m0 hE hcat k mk m1 hk hg hb
    rw [cube_edge_popcount _ _ hi.state_lt
      (body_state_lt log rnd n mk m1 false hlen' hi.state_lt hb) he, hp]

/-- With positive categorical draws the loop returns within four iterations. -/
theorem trajectory_terminates (log : ℚ → ℚ) (rnd : Nat → ℚ) (hrnd : UnitDraws rnd) (n : Nat)
    (m0 : Machine) (hE : CubeRates m0.edges)
    (hcat : CategoricalPositive log rnd n (initTrajectory rnd m0)) :
    ∃ mf, trajectory log rnd 4 n m0 = .ok mf := by
  have hinv := heads_inv (R := fun _ _ => True) (fun _ => trivial) (fun _ _ _ _ _ => trivial)
    log rnd hrnd n m0 hE.length_eq (fun _ _ _ _ _ _ => trivial)
  have key : ∀ d k mk, afterIters log rnd n k (initTrajectory rnd m0) = some mk → 4 ≤ k + d →
      ∃ mf, loop log rnd n d mk = .ok mf := by
    intro d
    induction d with
    | zero =>
      intro k mk hk hd
      have h1 := heads_popcount log rnd hrnd n m0 hE hcat k mk hk
      have h2 := popcount_le mk.state (hinv k mk hk).state_lt
      omega
    | succ d ih =>
      intro k mk hk hd
      rw [loop]
      by_cases hg : mk.tc < 10000
      · rw [if_pos hg]
        obtain ⟨m1, brk, hb⟩ := heads_body_ok log rnd hrnd n m0 hE.length_eq k mk hk
        rw [hb]
        cases brk with
        | true => exact ⟨m1, rfl⟩
        | false =>
          exact ih (k + 1) m1
            ((afterIters_succ_iff log rnd n k _ m1).2 ⟨mk, hk, hg, hb⟩) (by omega)
      · rw [if_neg hg]; exact ⟨mk, rfl⟩
  exact key 4 0 _ rfl (by decide)

/-- With holding times that are not negative, both deadlines are resolved in the machine
the loop returns. -/
theorem final_resolved (log : ℚ → ℚ) (rnd : Nat → ℚ) (hrnd : UnitDraws rnd)
    (hlog : LogNonpos log) (n : Nat) (m0 : Machine) (hE : CubeRates m0.edges)
    (fuel : Nat) (mf : Machine) (h : trajectory log rnd fuel n m0 = .ok mf) :
    mf.samp1 = -1 ∧ mf.samp2 = -1 := by
  obtain ⟨_, hlt1, h12, hlt2, ht1, ht2⟩ := deadlines_bounds rnd hrnd m0
  obtain ⟨k, mk, _, hk, hcase⟩ := (loop_ok_iff log rnd n fuel _ mf).1 h
  have hi := heads_inv (R := fun _ _ => True) (fun _ => trivial) (fun _ _ _ _ _ => trivial)
    log rnd hrnd n m0 hE.length_eq (fun _ _ _ _ _ _ => trivial) k mk hk
  have ht := heads_time log rnd hrnd hlog n m0 hE k mk hk
  rcases hcase with ⟨hg, rfl⟩ | ⟨hg, hb⟩
  · rcases hi.stage with ⟨_, _, stc, _⟩ | ⟨_, _, stc, _⟩ | ⟨s1, s2, _⟩
    · exact absurd (by linarith) hg
    · exact absurd (by linarith) hg
    · exact ⟨s1, s2⟩
  · have hlen' : mk.edges.length = 64 := by rw [hi.edges_eq]; exact hE.length_eq
    have hT := (body_break_iff log rnd n mk mf true hlen' hi.state_lt hb).1 rfl
    obtain ⟨_, _, _, e4, e5, _⟩ := body_spec log rnd n mk mf true hlen' hi.state_lt hb
    rw [tauOf_sentinel log rnd mk hT] at e4 e5
    have htc := ht.tc_nonneg
    constructor
    · rw [e4]
      split_ifs with c1
      · rfl
      · rcases hi.stage with ⟨s1, _⟩ | ⟨s1, _⟩ | ⟨s1, _⟩
        · exact absurd ⟨by rw [s1]; exact ht1, by rw [s1]; linarith⟩ c1
        · exact s1
        · exact s1
    · rw [e5]
      split_ifs with c2
      · rfl
      · rcases hi.stage with ⟨_, s2, _⟩ | ⟨_, s2, _⟩ | ⟨_, s2, _⟩
        · exact absurd ⟨by rw [s2]; exact ht2, by rw [s2]; linarith⟩ c2
        · exact absurd ⟨by rw [s2]; exact ht2, by rw [s2]; linarith⟩ c2
        · exact s2

theorem cubeRates_of_main (rnd : Nat → ℚ) (hrnd : UnitDraws rnd) (m0 : Machine)
    (hm0 : m0.edges = (afterAssignment rnd).edges) : CubeRates m0.edges := by
  rw [hm0]
  exact cubeRates_assignRates rnd 0 (fun k _ => (hrnd _).1)

theorem outputstr_pair (fp : List String) (a b : Nat) (ha : a < 8) (hb : b < 8) :
    outputstr (outputstr fp a) b = fp ++ [bitsLine a, bitsLine b] := by
  rw [outputstr_in_range fp a (by omega) (by omega),
    outputstr_in_range _ b (by omega) (by omega), List.append_assoc]
  rfl

theorem unitDraws_halfStream : UnitDraws halfStream := by
  intro k; constructor <;> norm_num [halfStream]

theorem logNonpos_linLog : LogNonpos linLog := by
  intro u _ h1
  show u - 1 ≤ 0
  linarith

theorem categoricalPositive_halfStream (log : ℚ → ℚ) (n : Nat) (init : Machine) :
    CategoricalPositive log halfStream n init := by
  intro k mk _ _ _
  norm_num [halfStream]

/-- The record in the machine a trajectory returns, when every transition taken is
related by `R`. -/
theorem final_record {R : Nat → Nat → Prop} (hrefl : ∀ a, R a a)
    (htrans : ∀ a b c, R a b → R b c → R a c)
    (log : ℚ → ℚ) (rnd : Nat → ℚ) (hrnd : UnitDraws rnd) (n : Nat) (m0 : Machine)
    (hlen : m0.edges.length = 64)
    (hstepR : ∀ k mk m1, afterIters log rnd n k (initTrajectory rnd m0) = some mk →
      mk.tc < 10000 → body log rnd n mk = .ok (m1, false) → R mk.state m1.state)
    (fuel : Nat) (mf : Machine) (h : trajectory log rnd fuel n m0 = .ok mf) :
    (mf.samp2 = (initTrajectory rnd m0).samp2 ∧ mf.fp = m0.fp ∧ mf.fptime = m0.fptime) ∨
    (mf.samp1 = -1 ∧ mf.samp2 = -1 ∧ ∃ a b, a < 8 ∧ b < 8 ∧ R 0 a ∧ R a b ∧
      mf.fp = outputstr (outputstr m0.fp (Int.ofNat a)) (Int.ofNat b) ∧
      mf.fptime = m0.fptime ++
        [(initTrajectory rnd m0).samp2 - (initTrajectory rnd m0).samp1]) := by
  have hi := final_inv hrefl htrans log rnd hrnd n m0 hlen hstepR fuel mf h
  rcases hi.stage with ⟨_, s2, _, sfp, sft⟩ | ⟨_, s2, _, sfp, sft, _⟩ |
      ⟨s1, s2, a, b, ha, hb, r0a, rab, _, _, _, sfp, sft⟩
  · exact Or.inl ⟨s2, sfp, sft⟩
  · exact Or.inl ⟨s2, sfp, sft⟩
  · exact Or.inr ⟨s1, s2, a, b, ha, hb, r0a, rab, sfp, sft⟩

theorem nextNode_eq (E : List ℚ) (s : Nat) (r : ℚ) (hlen : E.length = 64) (hs : s < 8) :
    nextNode E s r = scanFrom (cum E s 7) r ((List.range 8).map (cum E s)) 0 := by
  unfold nextNode
  rw [accumulate_ok E s hlen hs]

theorem cum_values (E : List ℚ) (s : Nat) :
    (List.range 8).map (cum E s) =
      [0 + E.getD (s * _N + 0) 0,
       0 + E.getD (s * _N + 0) 0 + E.getD (s * _N + 1) 0,
       0 + E.getD (s * _N + 0) 0 + E.getD (s * _N + 1) 0 + E.getD (s * _N + 2) 0,
       0 + E.getD (s * _N + 0) 0 + E.getD (s * _N + 1) 0 + E.getD (s * _N + 2) 0
         + E.getD (s * _N + 3) 0,
       0 + E.getD (s * _N + 0) 0 + E.getD (s * _N + 1) 0 + E.getD (s * _N + 2) 0
         + E.getD (s * _N + 3) 0 + E.getD (s * _N + 4) 0,
       0 + E.getD (s * _N + 0) 0 + E.getD (s * _N + 1) 0 + E.getD (s * _N + 2) 0
         + E.getD (s * _N + 3) 0 + E.getD (s * _N + 4) 0 + E.getD (s * _N + 5) 0,
       0 + E.getD (s * _N + 0) 0 + E.getD (s * _N + 1) 0 + E.getD (s * _N + 2) 0
         + E.getD (s * _N + 3) 0 + E.getD (s * _N + 4) 0 + E.getD (s * _N + 5) 0
         + E.getD (s * _N + 6) 0,
       0 + E.getD (s * _N + 0) 0 + E.getD (s * _N + 1) 0 + E.getD (s * _N + 2) 0
         + E.getD (s * _N + 3) 0 + E.getD (s * _N + 4) 0 + E.getD (s * _N + 5) 0
         + E.getD (s * _N + 6) 0 + E.getD (s * _N + 7) 0] ∧
    cum E s 7 = 0 + E.getD (s * _N + 0) 0 + E.getD (s * _N + 1) 0 + E.getD (s * _N + 2) 0
         + E.getD (s * _N + 3) 0 + E.getD (s * _N + 4) 0 + E.getD (s * _N + 5) 0
         + E.getD (s * _N + 6) 0 + E.getD (s * _N + 7) 0 :=
  ⟨rfl, rfl⟩

theorem targets_eq (s : Nat) (hs : s < 8) :
    (List.range 8).filter (fun j => isCubeEdge s j) = targetsOf s := by
  interval_cases s <;> decide

theorem sum_pos_of_exists_ne (l : List ℚ) (hn : ∀ x ∈ l, 0 ≤ x) (hx : ∃ x ∈ l, x ≠ 0) :
    0 < l.sum := by
  obtain ⟨x, hx, hne⟩ := hx
  have h1 : x ≤ l.sum := List.single_le_sum hn x hx
  have h2 : 0 < x := lt_of_le_of_ne (hn x hx) (Ne.symm hne)
  linarith

/-! ## The claims -/

/-- C2, as the claim states it, refuted: with the stream `rampStream`, the third draw is not
the rate of the third edge `0 -> 4` of the enumeration of section 3. -/
theorem C2_spec_order_refuted : ¬ AssignsInOrder specOrder := by
  intro h
  obtain ⟨e, he, hent⟩ := h rampStream 2 (by decide)
  have he2 : e = (0, 4) := by
    have : specOrder.get? 2 = some (0, 4) := rfl
    rw [this] at he
    exact (Option.some.inj he).symm
  subst he2
  have h04 := entry_edge rampStream 0 (0 : Fin 8) (4 : Fin 8) (by decide)
  have hE : (afterAssignment rampStream).edges = (assignRates rampStream 0).1 := rfl
  rw [hE] at hent
  have : entry (assignRates rampStream 0).1 0 4 = some (rampStream (0 + drawIndex 0 4)) := h04
  rw [this] at hent
  have h2 := Option.some.inj hent
  revert h2
  simp [rampStream, drawIndex]
  norm_num

/-- C2, amended: rate assignment consumes exactly the first 12 draws of the stream, before
any trajectory draw (the first deadline of the first trajectory is draw 12), the rates
depend on no other draw, and the `k`-th draw becomes the rate of the `k`-th edge of the list
`0->1, 0->2, 1->3, 2->3, 0->4, 1->5, 4->5, 2->6, 4->6, 3->7, 5->7, 6->7`. -/
theorem C2_source_order (rnd : Nat → ℚ) :
    (afterAssignment rnd).pos = 12 ∧
    AssignsInOrder sourceOrder ∧
    (∀ rnd2 : Nat → ℚ, (∀ k, k < 12 → rnd2 k = rnd k) →
      (afterAssignment rnd2).edges = (afterAssignment rnd).edges) ∧
    (initTrajectory rnd (afterAssignment rnd)).samp1 = rnd 12 * 2 := by
  have hE : ∀ r, (afterAssignment r).edges = (assignRates r 0).1 := fun _ => rfl
  refine ⟨?_, ?_, ?_, ?_⟩
  · show (assignRates rnd 0).2 = 12
    rw [assignRates_eq]
  · intro r k hk
    rw [hE, assignRates_eq]
    interval_cases k <;> exact ⟨_, rfl, rfl⟩
  · intro r2 h
    rw [hE, hE, assignRates_eq, assignRates_eq]
    simp only [Nat.zero_add]
    rw [h 0 (by decide), h 1 (by decide), h 2 (by decide), h 3 (by decide), h 4 (by decide),
      h 5 (by decide), h 6 (by decide), h 7 (by decide), h 8 (by decide), h 9 (by decide),
      h 10 (by decide), h 11 (by decide)]
  · show rnd (assignRates rnd 0).2 * 2 = rnd 12 * 2
    rw [assignRates_eq]

set_option maxHeartbeats 4000000 in
/-- C6: for every node `s` whose outgoing rates (in increasing target order) are not all
zero and every draw `u` with `0 < u < 1`, the node that the dense cumulative-sum loop
selects is the target of the edge with the smallest index `k` such that the sum of the
rates up to `k`, divided by the sum of all, is at least `u`. -/
theorem C6_selection_refines_reference (E : List ℚ) (hE : CubeRates E) (s : Nat) (hs : s < 8)
    (u : ℚ) (h0 : 0 < u) (h1 : u < 1) (hR : ∃ p ∈ outgoing E s, p.2 ≠ 0) :
    ∃ k tgt rate, refSelect ((outgoing E s).map Prod.snd) u = some k ∧
      (outgoing E s).get? k = some (tgt, rate) ∧ nextNode E s u = .ok tgt := by
  have hsum : 0 < ((outgoing E s).map Prod.snd).sum := by
    apply sum_pos_of_exists_ne
    · intro x hx
      simp only [outgoing, List.map_map, List.mem_map, List.mem_filter, List.mem_range,
        Function.comp] at hx
      obtain ⟨j, ⟨hj, _⟩, rfl⟩ := hx
      exact hE.nonneg s j hs hj
    · obtain ⟨p, hp, hne⟩ := hR
      exact ⟨p.2, List.mem_map_of_mem _ hp, hne⟩
  have hone := div_self (ne_of_gt hsum)
  have z0 := hE.nonedge s 0 hs (by decide)
  have z1 := hE.nonedge s 1 hs (by decide)
  have z2 := hE.nonedge s 2 hs (by decide)
  have z3 := hE.nonedge s 3 hs (by decide)
  have z4 := hE.nonedge s 4 hs (by decide)
  have z5 := hE.nonedge s 5 hs (by decide)
  have z6 := hE.nonedge s 6 hs (by decide)
  have z7 := hE.nonedge s 7 hs (by decide)
  rw [nextNode_eq E s u hE.length_eq hs, (cum_values E s).1, (cum_values E s).2]
  clear hR
  unfold outgoing at hsum hone ⊢
  rw [targets_eq s hs] at hsum hone ⊢
  obtain ⟨a, ha⟩ : ∃ a : Nat → ℚ, ∀ j, E.getD (s * _N + j) 0 = a j := ⟨_, fun _ => rfl⟩
  simp only [ha] at z0 z1 z2 z3 z4 z5 z6 z7 hsum hone ⊢
  clear ha hE
  interval_cases s
  all_goals simp only [targetsOf, List.map] at hsum hone ⊢
  all_goals (have h := z0 (by decide); simp only [h] at hsum hone ⊢)
  all_goals first | (have h := z1 (by decide); simp only [h] at hsum hone ⊢) | skip
  all_goals first | (have h := z2 (by decide); simp only [h] at hsum hone ⊢) | skip
  all_goals first | (have h := z3 (by decide); simp only [h] at hsum hone ⊢) | skip
  all_goals first | (have h := z4 (by decide); simp only [h] at hsum hone ⊢) | skip
  all_goals first | (have h := z5 (by decide); simp only [h] at hsum hone ⊢) | skip
  all_goals first | (have h := z6 (by decide); simp only [h] at hsum hone ⊢) | skip
  all_goals first | (have h := z7 (by decide); simp only [h] at hsum hone ⊢) | skip
  all_goals clear z0 z1 z2 z3 z4 z5 z6 z7
  all_goals simp only [List.sum_cons, List.sum_nil, add_zero, zero_add, ← add_assoc] at hsum hone
  all_goals simp only [scanFrom, refSelect, List.length, List.range_succ, List.range_zero,
    List.nil_append, List.cons_append, List.find?, List.take, List.sum_cons, List.sum_nil,
    add_zero, zero_add, zero_div, h0, if_true, hone, ← add_assoc]
  all_goals repeat' split
  all_goals first
    | exact ⟨_, _, _, rfl, rfl, rfl⟩
    | (exfalso
       simp only [decide_eq_true_eq, decide_eq_false_iff_not, not_le, not_lt] at *
       linarith)

/-- C6 at node 0 of the matrix built from `halfStream`, with the draw `1/2`. -/
theorem C6_witness :
    ∃ k tgt rate,
      refSelect ((outgoing (afterAssignment halfStream).edges 0).map Prod.snd) (1 / 2) = some k ∧
      (outgoing (afterAssignment halfStream).edges 0).get? k = some (tgt, rate) ∧
      nextNode (afterAssignment halfStream).edges 0 (1 / 2) = .ok tgt :=
  C6_selection_refines_reference (afterAssignment halfStream).edges
    (cubeRates_of_main halfStream unitDraws_halfStream _ rfl) 0 (by decide) (1 / 2)
    (by norm_num) (by norm_num) ⟨(1, 1 / 2), by decide!, by norm_num⟩

/-- C7: in every trajectory, at each loop head and in the machine the trajectory returns,
the time file is either as the trajectory found it (the second deadline is pending) or
holds one more value, `t2 - t1` for the deadlines `t1`, `t2` drawn at the start of this
trajectory, whatever `oldsamp` held before; with holding times that are not negative and
positive categorical draws the value is written. -/
theorem C7_elapsed_time_is_t2_minus_t1 (log : ℚ → ℚ) (rnd : Nat → ℚ) (hrnd : UnitDraws rnd)
    (n : Nat) (m0 : Machine) (hm0 : m0.edges = (afterAssignment rnd).edges) :
    (∀ k mk, afterIters log rnd n k (initTrajectory rnd m0) = some mk →
      (mk.samp2 = (initTrajectory rnd m0).samp2 ∧ mk.fptime = m0.fptime) ∨
      (mk.samp2 = -1 ∧ mk.fptime = m0.fptime ++
        [(initTrajectory rnd m0).samp2 - (initTrajectory rnd m0).samp1])) ∧
    (∀ fuel mf, trajectory log rnd fuel n m0 = .ok mf →
      (mf.samp2 = (initTrajectory rnd m0).samp2 ∧ mf.fptime = m0.fptime) ∨
      (mf.samp2 = -1 ∧ mf.fptime = m0.fptime ++
        [(initTrajectory rnd m0).samp2 - (initTrajectory rnd m0).samp1])) ∧
    (LogNonpos log → CategoricalPositive log rnd n (initTrajectory rnd m0) →
      ∃ mf, trajectory log rnd 4 n m0 = .ok mf ∧ mf.fptime = m0.fptime ++
        [(initTrajectory rnd m0).samp2 - (initTrajectory rnd m0).samp1]) := by
  have hE := cubeRates_of_main rnd hrnd m0 hm0
  obtain ⟨_, _, _, _, _, ht2⟩ := deadlines_bounds rnd hrnd m0
  have hfin : ∀ fuel mf, trajectory log rnd fuel n m0 = .ok mf →
      (mf.samp2 = (initTrajectory rnd m0).samp2 ∧ mf.fptime = m0.fptime) ∨
      (mf.samp2 = -1 ∧ mf.fptime = m0.fptime ++
        [(initTrajectory rnd m0).samp2 - (initTrajectory rnd m0).samp1]) := by
    intro fuel mf h
    rcases final_record (R := fun _ _ => True) (fun _ => trivial) (fun _ _ _ _ _ => trivial)
      log rnd hrnd n m0 hE.length_eq (fun _ _ _ _ _ _ => trivial) fuel mf h with
      ⟨s2, _, sft⟩ | ⟨_, s2, _, _, _, _, _, _, _, sft⟩
    · exact Or.inl ⟨s2, sft⟩
    · exact Or.inr ⟨s2, sft⟩
  refine ⟨?_, hfin, ?_⟩
  · intro k mk hk
    have hi := heads_inv (R := fun _ _ => True) (fun _ => trivial) (fun _ _ _ _ _ => trivial)
      log rnd hrnd n m0 hE.length_eq (fun _ _ _ _ _ _ => trivial) k mk hk
    rcases hi.stage with ⟨_, s2, _, _, sft⟩ | ⟨_, s2, _, _, sft, _⟩ |
        ⟨_, s2, _, _, _, _, _, _, _, _, _, _, sft⟩
    · exact Or.inl ⟨s2, sft⟩
    · exact Or.inl ⟨s2, sft⟩
    · exact Or.inr ⟨s2, sft⟩
  · intro hlog hcat
    obtain ⟨mf, hmf⟩ := trajectory_terminates log rnd hrnd n m0 hE hcat
    obtain ⟨_, s2⟩ := final_resolved log rnd hrnd hlog n m0 hE 4 mf hmf
    rcases hfin 4 mf hmf with ⟨s2', _⟩ | ⟨_, sft⟩
    · exact absurd (s2'.symm.trans s2) ht2
    · exact ⟨mf, hmf, sft⟩

/-- C7 at the stream `halfStream`. -/
theorem C7_witness :
    ∃ mf, trajectory linLog halfStream 4 0 (afterAssignment halfStream) = .ok mf ∧
      mf.fptime = [] ++ [(initTrajectory halfStream (afterAssignment halfStream)).samp2 -
        (initTrajectory halfStream (afterAssignment halfStream)).samp1] :=
  (C7_elapsed_time_is_t2_minus_t1 linLog halfStream unitDraws_halfStream 0
    (afterAssignment halfStream) rfl).2.2 logNonpos_linLog
    (categoricalPositive_halfStream _ _ _)

/-- C8: in every trajectory whose categorical draws lie in `(0, 1)` and whose holding times
are not negative, no drawn deadline is the marker `-1`, the loop returns (within four
iterations), and whichever way it is left, both deadlines are resolved and the trajectory
has written exactly one record: two state lines and one elapsed-time value. -/
theorem C8_exactly_one_record (log : ℚ → ℚ) (rnd : Nat → ℚ) (hrnd : UnitDraws rnd)
    (hlog : LogNonpos log) (n : Nat) (m0 : Machine)
    (hm0 : m0.edges = (afterAssignment rnd).edges)
    (hcat : CategoricalPositive log rnd n (initTrajectory rnd m0)) :
    ((initTrajectory rnd m0).samp1 ≠ -1 ∧ (initTrajectory rnd m0).samp2 ≠ -1) ∧
    (∃ mf, trajectory log rnd 4 n m0 = .ok mf) ∧
    (∀ fuel mf, trajectory log rnd fuel n m0 = .ok mf →
      mf.samp1 = -1 ∧ mf.samp2 = -1 ∧
      ∃ a b : Nat, a < 8 ∧ b < 8 ∧
        mf.fp = m0.fp ++ [bitsLine a, bitsLine b] ∧
        mf.fptime = m0.fptime ++
          [(initTrajectory rnd m0).samp2 - (initTrajectory rnd m0).samp1]) := by
  have hE := cubeRates_of_main rnd hrnd m0 hm0
  obtain ⟨_, _, _, _, ht1, ht2⟩ := deadlines_bounds rnd hrnd m0
  refine ⟨⟨ht1, ht2⟩, trajectory_terminates log rnd hrnd n m0 hE hcat, ?_⟩
  intro fuel mf h
  obtain ⟨s1, s2⟩ := final_resolved log rnd hrnd hlog n m0 hE fuel mf h
  rcases final_record (R := fun _ _ => True) (fun _ => trivial) (fun _ _ _ _ _ => trivial)
    log rnd hrnd n m0 hE.length_eq (fun _ _ _ _ _ _ => trivial) fuel mf h with
    ⟨s2', _⟩ | ⟨_, _, a, b, ha, hb, _, _, sfp, sft⟩
  · exact absurd (s2'.symm.trans s2) ht2
  · refine ⟨s1, s2, a, b, ha, hb, ?_, sft⟩
    rw [sfp]
    exact outputstr_pair m0.fp a b ha hb

/-- C8 at the stream `halfStream`: the first trajectory returns, and its record is node 3,
node 7 and the elapsed time `5/2`. -/
theorem C8_witness :
    (∃ mf, trajectory linLog halfStream 4 0 (afterAssignment halfStream) = .ok mf) ∧
    (trajectory linLog halfStream 4 0 (afterAssignment halfStream)).toOption.map
      (fun m => (m.fp, m.fptime)) = some (["0 1 1\n", "1 1 1\n"], [5 / 2]) :=
  ⟨(C8_exactly_one_record linLog halfStream unitDraws_halfStream logNonpos_linLog 0
    (afterAssignment halfStream) rfl (categoricalPositive_halfStream _ _ _)).2.1, by decide!⟩

/-- C9, as the claim states it, refuted: with the stream `earlyStream` both deadlines are 0
and are resolved in the first iteration, at stream position 16, yet the trajectory goes on
to position 20. -/
theorem C9_stops_when_resolved_refuted :
    ¬ StopsWhenResolved linLog earlyStream 0 (afterAssignment earlyStream) := by
  intro h
  have h1 : (afterIters linLog earlyStream 0 1
      (initTrajectory earlyStream (afterAssignment earlyStream))).map
        (fun m => (m.samp2, m.pos)) = some (-1, 16) := by decide!
  have h2 : (trajectory linLog earlyStream 4 0 (afterAssignment earlyStream)).toOption.map
      (fun m => m.pos) = some 20 := by decide!
  cases hk : afterIters linLog earlyStream 0 1
      (initTrajectory earlyStream (afterAssignment earlyStream)) with
  | none => rw [hk] at h1; cases h1
  | some mk =>
    rw [hk] at h1
    simp only [Option.map_some', Option.some.injEq, Prod.mk.injEq] at h1
    cases hf : trajectory linLog earlyStream 4 0 (afterAssignment earlyStream) with
    | error e => rw [hf] at h2; cases h2
    | ok mf =>
      rw [hf] at h2
      simp only [Except.toOption, Option.map_some', Option.some.injEq] at h2
      have := (h 1 mk hk h1.1 4 mf hf).1
      rw [h2, h1.2] at this
      exact absurd this (by decide)

/-- C9, amended: a trajectory does not stop when both deadlines are resolved. At the loop
head after `k` transitions it has consumed `2 + 2 * k` draws; from every loop head with
`tc < 10000` and `total` not 0 it makes a further transition, whether or not the deadlines
are resolved; and it returns only from a loop head with `tc >= 10000` or `total = 0`, having
consumed 2 draws plus a holding-time draw and a categorical draw for each transition. -/
theorem C9_runs_until_absorption (log : ℚ → ℚ) (rnd : Nat → ℚ) (hrnd : UnitDraws rnd)
    (n : Nat) (m0 : Machine) (hm0 : m0.edges = (afterAssignment rnd).edges) :
    (∀ k mk, afterIters log rnd n k (initTrajectory rnd m0) = some mk →
      mk.pos = m0.pos + 2 + 2 * k) ∧
    (∀ k mk, afterIters log rnd n k (initTrajectory rnd m0) = some mk →
      mk.tc < 10000 → cum mk.edges mk.state 7 ≠ 0 →
      ∃ m1, afterIters log rnd n (k + 1) (initTrajectory rnd m0) = some m1) ∧
    (∀ fuel mf, trajectory log rnd fuel n m0 = .ok mf →
      ∃ k mk, afterIters log rnd n k (initTrajectory rnd m0) = some mk ∧
        (10000 ≤ mk.tc ∨ cum mk.edges mk.state 7 = 0) ∧
        mf.pos = m0.pos + 2 + 2 * k ∧ mf.state = mk.state) := by
  have hE := cubeRates_of_main rnd hrnd m0 hm0
  have hinv := heads_inv (R := fun _ _ => True) (fun _ => trivial) (fun _ _ _ _ _ => trivial)
    log rnd hrnd n m0 hE.length_eq (fun _ _ _ _ _ _ => trivial)
  have hpos := heads_pos log rnd hrnd n m0 hE.length_eq
  refine ⟨hpos, ?_, ?_⟩
  · intro k mk hk hg hT
    have hi := hinv k mk hk
    have hlen' : mk.edges.length = 64 := by rw [hi.edges_eq]; exact hE.length_eq
    obtain ⟨m1, brk, hb⟩ := heads_body_ok log rnd hrnd n m0 hE.length_eq k mk hk
    cases brk with
    | true => exact absurd ((body_break_iff log rnd n mk m1 true hlen' hi.state_lt hb).1 rfl) hT
    | false => exact ⟨m1, (afterIters_succ_iff log rnd n k _ m1).2 ⟨mk, hk, hg, hb⟩⟩
  · intro fuel mf h
    obtain ⟨k, mk, _, hk, hcase⟩ := (loop_ok_iff log rnd n fuel _ mf).1 h
    have hi := hinv k mk hk
    have hlen' : mk.edges.length = 64 := by rw [hi.edges_eq]; exact hE.length_eq
    refine ⟨k, mk, hk, ?_⟩
    rcases hcase with ⟨hg, rfl⟩ | ⟨hg, hb⟩
    · exact ⟨Or.inl (not_lt.1 hg), hpos k _ hk, rfl⟩
    · have hT := (body_break_iff log rnd n mk mf true hlen' hi.state_lt hb).1 rfl
      obtain ⟨_, hst, _, hp⟩ :=
        (body_spec log rnd n mk mf true hlen' hi.state_lt hb).2.2.2.2.2.2.2.2.2.1 hT
      exact ⟨Or.inr hT, by rw [hp]; exact hpos k mk hk, hst⟩

/-- C9, amended, at the stream `halfStream`. -/
theorem C9_witness :
    ∃ mf k mk, trajectory linLog halfStream 4 0 (afterAssignment halfStream) = .ok mf ∧
      afterIters linLog halfStream 0 k
        (initTrajectory halfStream (afterAssignment halfStream)) = some mk ∧
      (10000 ≤ mk.tc ∨ cum mk.edges mk.state 7 = 0) ∧
      mf.pos = (afterAssignment halfStream).pos + 2 + 2 * k ∧ mf.state = mk.state := by
  obtain ⟨mf, hmf⟩ := trajectory_terminates linLog halfStream unitDraws_halfStream 0
    (afterAssignment halfStream)
    (cubeRates_of_main halfStream unitDraws_halfStream _ rfl)
    (categoricalPositive_halfStream _ _ _)
  obtain ⟨k, mk, h⟩ := (C9_runs_until_absorption linLog halfStream unitDraws_halfStream 0
    (afterAssignment halfStream) rfl).2.2 4 mf hmf
  exact ⟨mf, k, mk, hmf, h⟩

/-- C10: for every `ref` in `0..7`, `outputstr` writes the line `b2 b1 b0` with
`b2 = (ref / 4) % 2`, `b1 = (ref / 2) % 2`, `b0 = ref % 2` (node 0 gives `0 0 0`, node 7 gives
`1 1 1`); the encoding is injective on `0..7`; for a `ref` outside `0..7` nothing is
written. -/
theorem C10_outputstr_encoding :
    (∀ (fp : List String) (ref : Int), 0 ≤ ref → ref ≤ 7 →
      outputstr fp ref = fp ++ [bitsLine ref]) ∧
    outputstr [] 0 = ["0 0 0\n"] ∧ outputstr [] 7 = ["1 1 1\n"] ∧
    (∀ (fp : List String) (a b : Int), 0 ≤ a → a ≤ 7 → 0 ≤ b → b ≤ 7 →
      outputstr fp a = outputstr fp b → a = b) ∧
    (∀ (fp : List String) (ref : Int), ref < 0 ∨ 7 < ref → outputstr fp ref = fp) := by
  refine ⟨outputstr_in_range, rfl, rfl, ?_, outputstr_out_of_range⟩
  intro fp a b ha0 ha7 hb0 hb7 h
  rw [outputstr_in_range fp a ha0 ha7, outputstr_in_range fp b hb0 hb7] at h
  have h2 := List.append_cancel_left h
  exact bitsLine_inj a b ha0 ha7 hb0 hb7 (List.head_eq_of_cons_eq h2)

theorem except_ok_of_toOption {ε α : Type} {e : Except ε α} {a : α}
    (h : e.toOption = some a) : e = .ok a := by
  cases e with
  | error x => cases h
  | ok b =>
    simp only [Except.toOption, Option.some.injEq] at h
    rw [h]

theorem unitDraws_earlyStream : UnitDraws earlyStream := by
  intro k
  unfold earlyStream
  split_ifs <;> norm_num

theorem unitDraws_zeroStream : UnitDraws zeroStream := by
  intro k; constructor <;> norm_num [zeroStream]

/-- C11, as the claim states it, refuted: with the stream `earlyStream` the second deadline
draw of the first trajectory is 0, and the two deadlines are equal. -/
theorem C11_strict_order_refuted : ¬ DeadlinesStrict := by
  intro h
  have := h earlyStream unitDraws_earlyStream (afterAssignment earlyStream)
  exact absurd this (by decide!)

/-- C11, amended: for every pair of draws in `[0, 1)` the deadlines `t1 = 2*u1` and
`t2 = t1 + 5*u2` computed by lines 86-87 satisfy `t1 <= t2`; `t1 < t2` holds exactly when
`u2 > 0`, and `t1 = t2` exactly when `u2 = 0`. -/
theorem C11_deadlines_ordered (rnd : Nat → ℚ) (hrnd : UnitDraws rnd) (m0 : Machine) :
    (initTrajectory rnd m0).samp1 = rnd m0.pos * 2 ∧
    (initTrajectory rnd m0).samp2 = (initTrajectory rnd m0).samp1 + rnd (m0.pos + 1) * 5 ∧
    (initTrajectory rnd m0).samp1 ≤ (initTrajectory rnd m0).samp2 ∧
    ((initTrajectory rnd m0).samp1 < (initTrajectory rnd m0).samp2 ↔ 0 < rnd (m0.pos + 1)) ∧
    ((initTrajectory rnd m0).samp1 = (initTrajectory rnd m0).samp2 ↔ rnd (m0.pos + 1) = 0) := by
  obtain ⟨_, _, _, _, e1, e2, _⟩ := initTrajectory_fields rnd m0
  have hb := (hrnd (m0.pos + 1)).1
  rw [e1, e2]
  refine ⟨rfl, rfl, by linarith, ⟨fun h => by linarith, fun h => by linarith⟩,
    ⟨fun h => by linarith, fun h => by rw [h]; ring⟩⟩

/-- C11, amended, at the stream `halfStream`: the deadlines of the first trajectory are
strictly ordered. -/
theorem C11_witness :
    (initTrajectory halfStream (afterAssignment halfStream)).samp1 <
      (initTrajectory halfStream (afterAssignment halfStream)).samp2 :=
  (C11_deadlines_ordered halfStream unitDraws_halfStream
    (afterAssignment halfStream)).2.2.2.1.2 (by norm_num [halfStream])

/-- C13, as the claim states it, refuted: with the stream `zeroStream` the argument of
`log` in `expsample` is 0. -/
theorem C13_log_argument_zero : ¬ LogArgumentPositive := by
  intro h
  have := h zeroStream unitDraws_zeroStream 0
  exact absurd this (by decide!)

/-- C13, amended: `expsample` passes the draw to `log` unchanged and advances the stream
by one; for every draw `u` in `[0, 1)` the argument is not negative and below 1, and it is
strictly positive exactly when `u` is not 0; for a draw in `(0, 1)`, a positive rate and a
logarithm that is not positive on `[0, 1)`, the holding time is not negative. -/
theorem C13_log_argument_is_draw (log : ℚ → ℚ) (rnd : Nat → ℚ) (hrnd : UnitDraws rnd)
    (pos : Nat) (lambda : ℚ) (hl : 0 < lambda) :
    (expsample log rnd pos lambda).1 = -(log (logArgument rnd pos)) / lambda ∧
    (expsample log rnd pos lambda).2 = pos + 1 ∧
    logArgument rnd pos = rnd pos ∧
    0 ≤ logArgument rnd pos ∧ logArgument rnd pos < 1 ∧
    (0 < logArgument rnd pos ↔ rnd pos ≠ 0) ∧
    (0 < rnd pos → LogNonpos log → 0 ≤ (expsample log rnd pos lambda).1) := by
  obtain ⟨h0, h1⟩ := hrnd pos
  refine ⟨rfl, rfl, rfl, h0, h1, ⟨fun h => ne_of_gt h, fun h => lt_of_le_of_ne h0 (Ne.symm h)⟩, ?_⟩
  intro _ hlog
  have := hlog (rnd pos) h0 h1
  show 0 ≤ -(log (rnd pos)) / lambda
  apply div_nonneg _ (le_of_lt hl)
  linarith

/-- C13, amended, at the stream `halfStream` and the rate `3/2`. -/
theorem C13_witness :
    0 < logArgument halfStream 14 ∧ 0 ≤ (expsample linLog halfStream 14 (3 / 2)).1 :=
  have h := C13_log_argument_is_draw linLog halfStream unitDraws_halfStream 14 (3 / 2)
    (by norm_num)
  ⟨h.2.2.2.2.2.1.2 (by norm_num [halfStream]),
    h.2.2.2.2.2.2 (by norm_num [halfStream]) logNonpos_linLog⟩

/-- A trajectory whose draws lie in `[0, 1)` fails only by running out of fuel: no read of
an array or of a variable fails. -/
theorem trajectory_error_fuel (log : ℚ → ℚ) (rnd : Nat → ℚ) (hrnd : UnitDraws rnd) (n : Nat)
    (m0 : Machine) (hlen : m0.edges.length = 64) (fuel : Nat) (e : Fault)
    (h : trajectory log rnd fuel n m0 = .error e) : e = Fault.outOfFuel := by
  have key : ∀ fuel k mk, afterIters log rnd n k (initTrajectory rnd m0) = some mk →
      loop log rnd n fuel mk = .error e → e = Fault.outOfFuel := by
    intro fuel
    induction fuel with
    | zero =>
      intro k mk _ hl
      simp only [loop, Except.error.injEq] at hl
      exact hl.symm
    | succ fuel ih =>
      intro k mk hk hl
      rw [loop] at hl
      by_cases hg : mk.tc < 10000
      · rw [if_pos hg] at hl
        obtain ⟨m1, brk, hb⟩ := heads_body_ok log rnd hrnd n m0 hlen k mk hk
        rw [hb] at hl
        cases brk with
        | true => cases hl
        | false =>
          exact ih (k + 1) m1 ((afterIters_succ_iff log rnd n k _ m1).2 ⟨mk, hk, hg, hb⟩) hl
      · rw [if_neg hg] at hl; cases hl
  exact key fuel 0 _ rfl h

/-- C15: for every rate matrix that rate assignment produces and every stream whose
categorical draws in the trajectory are positive (all draws are below 1), the loop returns
within four iterations; the node at the `k`-th loop head has popcount `k`, so each transition
strictly increases the popcount and there are at most 3, hence at most 8, transitions; an
iteration entered at a node with `total = 0` ends the loop; and the machine returned is
that of a loop head reached after at most 3 transitions. -/
theorem C15_terminates_within_three_transitions (log : ℚ → ℚ) (rnd rnd0 : Nat → ℚ)
    (hrnd : UnitDraws rnd) (hrnd0 : UnitDraws rnd0) (n : Nat) (m0 : Machine)
    (hm0 : m0.edges = (afterAssignment rnd0).edges)
    (hcat : CategoricalPositive log rnd n (initTrajectory rnd m0)) :
    (∃ mf, trajectory log rnd 4 n m0 = .ok mf) ∧
    (∀ k mk, afterIters log rnd n k (initTrajectory rnd m0) = some mk →
      popcount mk.state = k ∧ k ≤ 3 ∧ k ≤ 8) ∧
    (∀ k mk m1, afterIters log rnd n k (initTrajectory rnd m0) = some mk →
      afterIters log rnd n (k + 1) (initTrajectory rnd m0) = some m1 →
      popcount mk.state < popcount m1.state) ∧
    (∀ k mk, afterIters log rnd n k (initTrajectory rnd m0) = some mk → mk.tc < 10000 →
      cum mk.edges mk.state 7 = 0 →
      ∃ mf, body log rnd n mk = .ok (mf, true) ∧ trajectory log rnd (k + 1) n m0 = .ok mf) ∧
    (∀ fuel mf, trajectory log rnd fuel n m0 = .ok mf →
      ∃ k mk, k ≤ 3 ∧ afterIters log rnd n k (initTrajectory rnd m0) = some mk ∧
        mf.state = mk.state ∧ mf.pos = m0.pos + 2 + 2 * k) := by
  have hE := cubeRates_of_main rnd0 hrnd0 m0 hm0
  have hinv := heads_inv (R := fun _ _ => True) (fun _ => trivial) (fun _ _ _ _ _ => trivial)
    log rnd hrnd n m0 hE.length_eq (fun _ _ _ _ _ _ => trivial)
  have hpc : ∀ k mk, afterIters log rnd n k (initTrajectory rnd m0) = some mk →
      popcount mk.state = k ∧ k ≤ 3 ∧ k ≤ 8 := by
    intro k mk hk
    have h1 := heads_popcount log rnd hrnd n m0 hE hcat k mk hk
    have h2 := popcount_le mk.state (hinv k mk hk).state_lt
    exact ⟨h1, by omega, by omega⟩
  refine ⟨trajectory_terminates log rnd hrnd n m0 hE hcat, hpc, ?_, ?_, ?_⟩
  · intro k mk m1 hk hk1
    have := (hpc k mk hk).1
    have := (hpc (k + 1) m1 hk1).1
    omega
  · intro k mk hk hg hT
    have hi := hinv k mk hk
    have hlen' : mk.edges.length = 64 := by rw [hi.edges_eq]; exact hE.length_eq
    obtain ⟨m1, brk, hb⟩ := heads_body_ok log rnd hrnd n m0 hE.length_eq k mk hk
    have hbrk := (body_break_iff log rnd n mk m1 brk hlen' hi.state_lt hb).2 hT
    subst hbrk
    exact ⟨m1, hb, (loop_ok_iff log rnd n (k + 1) _ m1).2
      ⟨k, mk, Nat.lt_succ_self k, hk, Or.inr ⟨hg, hb⟩⟩⟩
  · intro fuel mf h
    obtain ⟨k, mk, _, hk, hcase⟩ := (loop_ok_iff log rnd n fuel _ mf).1 h
    have hi := hinv k mk hk
    have hlen' : mk.edges.length = 64 := by rw [hi.edges_eq]; exact hE.length_eq
    have hp := heads_pos log rnd hrnd n m0 hE.length_eq k mk hk
    refine ⟨k, mk, (hpc k mk hk).2.1, hk, ?_⟩
    rcases hcase with ⟨_, rfl⟩ | ⟨_, hb⟩
    · exact ⟨rfl, hp⟩
    · have hT := (body_break_iff log rnd n mk mf true hlen' hi.state_lt hb).1 rfl
      obtain ⟨_, hst, _, hpp⟩ :=
        (body_spec log rnd n mk mf true hlen' hi.state_lt hb).2.2.2.2.2.2.2.2.2.1 hT
      exact ⟨hst, by rw [hpp]; exact hp⟩

/-- C15 at the stream `halfStream`. -/
theorem C15_witness :
    ∃ mf, trajectory linLog halfStream 4 0 (afterAssignment halfStream) = .ok mf :=
  (C15_terminates_within_three_transitions linLog halfStream halfStream unitDraws_halfStream
    unitDraws_halfStream 0 (afterAssignment halfStream) rfl
    (categoricalPositive_halfStream _ _ _)).1

/-- C16: in every trajectory (draws in `[0, 1)`), at every loop head the node is in `0..7`,
lines 91-97 read the matrix inside its 64 entries and fill `cumsum[0..7]` with `cumsum[7]`
equal to `total`, which is not negative; the iteration produces a machine whose node is in
`0..7`; it leaves through `break` exactly when `total = 0`, and otherwise `total > 0` and the
scan of line 117 stops at the next node. The machine a trajectory returns has its node in
`0..7`, a trajectory fails only by running out of fuel, and for every draw `r` in `[0, 1)`
and node with `total` not 0 the scan stops at an index `j <= 7`. -/
theorem C16_state_range_safety (log : ℚ → ℚ) (rnd : Nat → ℚ) (hrnd : UnitDraws rnd)
    (n : Nat) (m0 : Machine) (hm0 : m0.edges = (afterAssignment rnd).edges) :
    (∀ k mk, afterIters log rnd n k (initTrajectory rnd m0) = some mk →
      mk.state < 8 ∧
      ∃ cs T, accumulate mk.edges mk.state = .ok (cs, T) ∧ cs.length = 8 ∧
        cs.get? 7 = some T ∧ 0 ≤ T ∧
        ∃ m1 brk, body log rnd n mk = .ok (m1, brk) ∧ m1.state < 8 ∧
          (brk = true ↔ T = 0) ∧
          (brk = false → 0 < T ∧ scanFrom T (rnd (mk.pos + 1)) cs 0 = .ok m1.state)) ∧
    (∀ fuel mf, trajectory log rnd fuel n m0 = .ok mf → mf.state < 8) ∧
    (∀ fuel e, trajectory log rnd fuel n m0 = .error e → e = Fault.outOfFuel) ∧
    (∀ (s : Nat) (r : ℚ), s < 8 → 0 ≤ r → r < 1 → cum m0.edges s 7 ≠ 0 →
      ∃ j, nextNode m0.edges s r = .ok j ∧ j ≤ 7) := by
  have hE := cubeRates_of_main rnd hrnd m0 hm0
  have hinv := heads_inv (R := fun _ _ => True) (fun _ => trivial) (fun _ _ _ _ _ => trivial)
    log rnd hrnd n m0 hE.length_eq (fun _ _ _ _ _ _ => trivial)
  refine ⟨?_, ?_, trajectory_error_fuel log rnd hrnd n m0 hE.length_eq, ?_⟩
  · intro k mk hk
    have hi := hinv k mk hk
    have hE' : CubeRates mk.edges := by rw [hi.edges_eq]; exact hE
    obtain ⟨m1, brk, hb⟩ := heads_body_ok log rnd hrnd n m0 hE.length_eq k mk hk
    have hbi := body_break_iff log rnd n mk m1 brk hE'.length_eq hi.state_lt hb
    refine ⟨hi.state_lt, _, _, accumulate_ok mk.edges mk.state hE'.length_eq hi.state_lt,
      by simp, rfl, cum_nonneg hE' hi.state_lt 7 (by decide), m1, brk, hb,
      body_state_lt log rnd n mk m1 brk hE'.length_eq hi.state_lt hb, hbi, ?_⟩
    intro hbf
    have hT : cum mk.edges mk.state 7 ≠ 0 := fun hT => by
      rw [hbi.2 hT] at hbf; cases hbf
    exact ⟨lt_of_le_of_ne (cum_nonneg hE' hi.state_lt 7 (by decide)) (Ne.symm hT),
      ((body_spec log rnd n mk m1 brk hE'.length_eq hi.state_lt hb).2.2.2.2.2.2.2.2.2.2
        hT).2.2.2⟩
  · intro fuel mf h
    exact (final_inv (R := fun _ _ => True) (fun _ => trivial) (fun _ _ _ _ _ => trivial)
      log rnd hrnd n m0 hE.length_eq (fun _ _ _ _ _ _ => trivial) fuel mf h).state_lt
  · intro s r hs _ hr1 hT
    obtain ⟨j, hj⟩ := scan_finds m0.edges s r hT hr1
    refine ⟨j, by rw [nextNode_eq m0.edges s r hE.length_eq hs]; exact hj, ?_⟩
    have := ((scanFrom_cum _ _ _ _).1 hj).1
    omega

/-- C16 at node 0 of the matrix built from `halfStream`, with the draw 0. -/
theorem C16_witness :
    ∃ j, nextNode (afterAssignment halfStream).edges 0 0 = .ok j ∧ j ≤ 7 :=
  (C16_state_range_safety linLog halfStream unitDraws_halfStream 0
    (afterAssignment halfStream) rfl).2.2.2 0 0 (by decide) (le_refl 0) (by norm_num)
    (by decide!)

theorem entry_le_total {E : List ℚ} (hE : CubeRates E) {s j : Nat} (hs : s < 8) (hj : j < 8) :
    E.getD (s * _N + j) 0 ≤ cum E s 7 := by
  rw [(cum_values E s).2]
  have n0 := hE.nonneg s 0 hs (by decide)
  have n1 := hE.nonneg s 1 hs (by decide)
  have n2 := hE.nonneg s 2 hs (by decide)
  have n3 := hE.nonneg s 3 hs (by decide)
  have n4 := hE.nonneg s 4 hs (by decide)
  have n5 := hE.nonneg s 5 hs (by decide)
  have n6 := hE.nonneg s 6 hs (by decide)
  have n7 := hE.nonneg s 7 hs (by decide)
  interval_cases j <;> linarith

theorem getD_of_entry {E : List ℚ} {i j : Nat} {v : ℚ} (h : entry E i j = some v) :
    E.getD (i * _N + j) 0 = v := by
  unfold entry at h
  rw [List.getD, h]; rfl

/-- With positive rates every node other than 7 has a positive total outgoing rate. -/
theorem total_ne_zero_of_positive (rnd : Nat → ℚ) (hrnd : UnitDraws rnd)
    (hpos : PositiveRates rnd) (s : Nat) (hs : s < 8) (h7 : s ≠ 7) :
    cum (afterAssignment rnd).edges s 7 ≠ 0 := by
  have hE := cubeRates_of_main rnd hrnd (afterAssignment rnd) rfl
  have key : ∀ j, j < 8 → isCubeEdge s j → 0 < cum (afterAssignment rnd).edges s 7 := by
    intro j hj he
    have h1 := getD_of_entry (entry_edge rnd 0 ⟨s, hs⟩ ⟨j, hj⟩ he)
    have h2 : drawIndex s j < 12 := by
      have : ∀ i j : Fin 8, isCubeEdge i j → drawIndex i j < 12 := by decide
      exact this ⟨s, hs⟩ ⟨j, hj⟩ he
    have h3 := hpos _ h2
    have h4 := entry_le_total hE hs hj
    have h5 : (afterAssignment rnd).edges = (assignRates rnd 0).1 := rfl
    rw [h5] at h4
    simp only [Nat.zero_add] at h1
    rw [h5]
    exact lt_of_lt_of_le (by rw [h1]; exact h3) h4
  have hex : ∀ s : Fin 8, (s : Nat) ≠ 7 → ∃ j : Fin 8, isCubeEdge s j := by decide
  obtain ⟨j, hj⟩ := hex ⟨s, hs⟩ h7
  exact ne_of_gt (key j j.isLt hj)

theorem popcount_three (s : Nat) (hs : s < 8) (h : popcount s = 3) : s = 7 := by
  have key : ∀ s : Fin 8, popcount s = 3 → (s : Nat) = 7 := by decide
  exact key ⟨s, hs⟩ h

theorem popcount_lt_three (s : Nat) (h : popcount s < 3) : s ≠ 7 := by
  intro h7; rw [h7] at h; exact absurd h (by decide)

/-- With positive rates, positive categorical draws and time below 10000, a trajectory
makes exactly three transitions and consumes eight draws. -/
theorem three_transitions (log : ℚ → ℚ) (rnd : Nat → ℚ) (hrnd : UnitDraws rnd)
    (hpos : PositiveRates rnd) (n : Nat) (m0 : Machine)
    (hm0 : m0.edges = (afterAssignment rnd).edges)
    (hcat : CategoricalPositive log rnd n (initTrajectory rnd m0))
    (htime : TimeBelow log rnd n (initTrajectory rnd m0)) :
    ∃ m3 mf, afterIters log rnd n 3 (initTrajectory rnd m0) = some m3 ∧ m3.state = 7 ∧
      m3.pos = m0.pos + 8 ∧ body log rnd n m3 = .ok (mf, true) ∧
      mf.state = 7 ∧ mf.pos = m0.pos + 8 ∧ mf.edges = m0.edges ∧
      ∀ fuel, 4 ≤ fuel → trajectory log rnd fuel n m0 = .ok mf := by
  have hE := cubeRates_of_main rnd hrnd m0 hm0
  have hinv := heads_inv (R := fun _ _ => True) (fun _ => trivial) (fun _ _ _ _ _ => trivial)
    log rnd hrnd n m0 hE.length_eq (fun _ _ _ _ _ _ => trivial)
  have hpc := heads_popcount log rnd hrnd n m0 hE hcat
  have next : ∀ k mk, k < 3 → afterIters log rnd n k (initTrajectory rnd m0) = some mk →
      ∃ m1, afterIters log rnd n (k + 1) (initTrajectory rnd m0) = some m1 := by
    intro k mk hk3 hk
    have hi := hinv k mk hk
    have hlen' : mk.edges.length = 64 := by rw [hi.edges_eq]; exact hE.length_eq
    have hne : mk.state ≠ 7 := popcount_lt_three _ (by rw [hpc k mk hk]; exact hk3)
    have hT : cum mk.edges mk.state 7 ≠ 0 := by
      rw [hi.edges_eq, hm0]
      exact total_ne_zero_of_positive rnd hrnd hpos _ hi.state_lt hne
    obtain ⟨m1, brk, hb⟩ := heads_body_ok log rnd hrnd n m0 hE.length_eq k mk hk
    cases brk with
    | true => exact absurd ((body_break_iff log rnd n mk m1 true hlen' hi.state_lt hb).1 rfl) hT
    | false =>
      exact ⟨m1, (afterIters_succ_iff log rnd n k _ m1).2 ⟨mk, hk, htime k mk hk, hb⟩⟩
  obtain ⟨m1, h1⟩ := next 0 _ (by decide) rfl
  obtain ⟨m2, h2⟩ := next 1 m1 (by decide) h1
  obtain ⟨m3, h3⟩ := next 2 m2 (by decide) h2
  have hi := hinv 3 m3 h3
  have hlen' : m3.edges.length = 64 := by rw [hi.edges_eq]; exact hE.length_eq
  have h7 : m3.state = 7 := popcount_three _ hi.state_lt (hpc 3 m3 h3)
  have hT : cum m3.edges m3.state 7 = 0 := by
    rw [h7, hi.edges_eq]; exact cum_seven_row7 hE
  obtain ⟨mf, brk, hb⟩ := heads_body_ok log rnd hrnd n m0 hE.length_eq 3 m3 h3
  have hbrk := (body_break_iff log rnd n m3 mf brk hlen' hi.state_lt hb).2 hT
  subst hbrk
  obtain ⟨hed, _, _, _, _, _, _, _, _, e10, _⟩ :=
    body_spec log rnd n m3 mf true hlen' hi.state_lt hb
  obtain ⟨_, hst, _, hpp⟩ := e10 hT
  have hp3 : m3.pos = m0.pos + 8 := by
    rw [heads_pos log rnd hrnd n m0 hE.length_eq 3 m3 h3]
  refine ⟨m3, mf, h3, h7, hp3, hb, by rw [hst, h7], by rw [hpp, hp3],
    by rw [hed, hi.edges_eq], ?_⟩
  intro fuel hf
  exact (loop_ok_iff log rnd n fuel _ mf).2 ⟨3, m3, by omega, h3, Or.inr ⟨htime 3 m3 h3, hb⟩⟩

theorem trajectories_snoc (log : ℚ → ℚ) (rnd : Nat → ℚ) (fuel count : Nat) :
    ∀ (n : Nat) (m : Machine), trajectories log rnd fuel (count + 1) n m =
      match trajectories log rnd fuel count n m with
      | .error e => .error e
      | .ok m1 => trajectory log rnd fuel (n + count) m1 := by
  induction count with
  | zero =>
    intro n m
    simp only [trajectories, Nat.add_zero]
    cases trajectory log rnd fuel n m <;> rfl
  | succ count ih =>
    intro n m
    rw [trajectories]
    cases h : trajectory log rnd fuel n m with
    | error e => simp only [trajectories, h]
    | ok m1 =>
      simp only []
      rw [ih (n + 1) m1]
      conv_rhs => rw [trajectories, h]
      simp only []
      have : n + 1 + count = n + (count + 1) := by omega
      rw [this]

theorem timeBelow_halfStream :
    TimeBelow linLog halfStream 0 (initTrajectory halfStream (afterAssignment halfStream)) := by
  intro k mk hk
  have hE := cubeRates_of_main halfStream unitDraws_halfStream (afterAssignment halfStream) rfl
  have h1 := heads_popcount linLog halfStream unitDraws_halfStream 0 _ hE
    (categoricalPositive_halfStream _ _ _) k mk hk
  have h2 := popcount_le mk.state
    (heads_inv (R := fun _ _ => True) (fun _ => trivial) (fun _ _ _ _ _ => trivial)
      linLog halfStream unitDraws_halfStream 0 _ hE.length_eq (fun _ _ _ _ _ _ => trivial)
      k mk hk).state_lt
  have hk3 : k ≤ 3 := by omega
  have hv : ∀ j : Fin 4, ((afterIters linLog halfStream 0 j
      (initTrajectory halfStream (afterAssignment halfStream))).map
        (fun m => decide (m.tc < 10000))) = some true := by decide!
  have := hv ⟨k, by omega⟩
  simp only [hk, Option.map_some', Option.some.injEq, decide_eq_true_eq] at this
  exact this

/-- C17: if all 12 rates are strictly positive and, in each of the first `N` trajectories
of the run, the categorical draws are positive (all draws are below 1) and the simulated
time stays below 10000 at every loop head, then each of these trajectories makes exactly 3
transitions (the node at loop head `k` has popcount `k`, the last loop head is node 7) and
consumes exactly 8 draws: two for the deadlines, then a holding-time draw and a categorical
draw for each transition (loop head `k` is at position `start + 2 + 2 * k`), none at node 7.
Hence trajectory `n` starts at stream position `12 + 8 * n`, and a run of 1000 trajectories
ends at position 8012. -/
theorem C17_fixed_stream_consumption (log : ℚ → ℚ) (rnd : Nat → ℚ) (hrnd : UnitDraws rnd)
    (hpos : PositiveRates rnd) (fuel : Nat) (hfuel : 4 ≤ fuel) (N : Nat)
    (hrun : ∀ i m, i < N → trajectories log rnd fuel i 0 (afterAssignment rnd) = .ok m →
      CategoricalPositive log rnd i (initTrajectory rnd m) ∧
      TimeBelow log rnd i (initTrajectory rnd m)) :
    (∀ i m, i < N → trajectories log rnd fuel i 0 (afterAssignment rnd) = .ok m →
      (∀ k mk, afterIters log rnd i k (initTrajectory rnd m) = some mk →
        k ≤ 3 ∧ popcount mk.state = k ∧ mk.pos = m.pos + 2 + 2 * k) ∧
      ∃ m3 mf, afterIters log rnd i 3 (initTrajectory rnd m) = some m3 ∧ m3.state = 7 ∧
        body log rnd i m3 = .ok (mf, true) ∧ trajectory log rnd fuel i m = .ok mf ∧
        mf.state = 7 ∧ mf.pos = m3.pos ∧ mf.pos = m.pos + 8) ∧
    (∀ n, n ≤ N → ∃ m, trajectories log rnd fuel n 0 (afterAssignment rnd) = .ok m ∧
      m.pos = 12 + 8 * n) ∧
    (N = 1000 → ∃ m, main log rnd fuel = .ok m ∧ m.pos = 8012) := by
  have hrunE : ∀ n, n ≤ N → ∃ m, trajectories log rnd fuel n 0 (afterAssignment rnd) = .ok m ∧
      m.pos = 12 + 8 * n ∧ m.edges = (afterAssignment rnd).edges := by
    intro n
    induction n with
    | zero =>
      intro _
      refine ⟨afterAssignment rnd, rfl, ?_, rfl⟩
      show (assignRates rnd 0).2 = 12 + 8 * 0
      rw [assignRates_eq]
    | succ n ih =>
      intro hn
      obtain ⟨m, hm, hp, he⟩ := ih (by omega)
      obtain ⟨hcat, htime⟩ := hrun n m (by omega) hm
      obtain ⟨m3, mf, _, _, _, _, _, hpf, hef, htr⟩ :=
        three_transitions log rnd hrnd hpos n m he hcat htime
      refine ⟨mf, ?_, by rw [hpf, hp]; ring, hef.trans he⟩
      rw [trajectories_snoc, hm]
      simp only [Nat.zero_add]
      exact htr fuel hfuel
  have hedges : ∀ i m, i ≤ N → trajectories log rnd fuel i 0 (afterAssignment rnd) = .ok m →
      m.edges = (afterAssignment rnd).edges := by
    intro i m hi hm
    obtain ⟨m2, hm2, _, he⟩ := hrunE i hi
    rw [hm] at hm2
    cases hm2
    exact he
  refine ⟨?_, fun n hn => ?_, fun hN => ?_⟩
  · intro i m hi hm
    have he := hedges i m (by omega) hm
    have hE := cubeRates_of_main rnd hrnd m he
    obtain ⟨hcat, htime⟩ := hrun i m hi hm
    obtain ⟨m3, mf, h3, h7, hp3, hb, hsf, hpf, _, htr⟩ :=
      three_transitions log rnd hrnd hpos i m he hcat htime
    refine ⟨?_, m3, mf, h3, h7, hb, htr fuel hfuel, hsf, by rw [hpf, hp3], hpf⟩
    intro k mk hk
    have h1 := heads_popcount log rnd hrnd i m hE hcat k mk hk
    have h2 := popcount_le mk.state
      (heads_inv (R := fun _ _ => True) (fun _ => trivial) (fun _ _ _ _ _ => trivial)
        log rnd hrnd i m hE.length_eq (fun _ _ _ _ _ _ => trivial) k mk hk).state_lt
    exact ⟨by omega, h1, heads_pos log rnd hrnd i m hE.length_eq k mk hk⟩
  · obtain ⟨m, hm, hp, _⟩ := hrunE n hn
    exact ⟨m, hm, hp⟩
  · obtain ⟨m, hm, hp, _⟩ := hrunE 1000 (by omega)
    exact ⟨m, hm, hp⟩

/-- C17 at the stream `halfStream`: the second trajectory starts at position 20. -/
theorem C17_witness :
    ∃ m, trajectories linLog halfStream 4 1 0 (afterAssignment halfStream) = .ok m ∧
      m.pos = 12 + 8 * 1 :=
  (C17_fixed_stream_consumption linLog halfStream unitDraws_halfStream
    (fun _ _ => by norm_num [halfStream]) 4 (le_refl 4) 1
    (fun i m hi hm => by
      have h0 : i = 0 := by omega
      subst h0
      simp only [trajectories, Except.ok.injEq] at hm
      subst hm
      exact ⟨categoricalPositive_halfStream _ _ _, timeBelow_halfStream⟩)).2.1 1 (le_refl 1)

theorem outputstr_append (fp : List String) (ref : Int) :
    outputstr fp ref = fp ++ outputstr [] ref := by
  unfold outputstr
  split <;> simp

theorem tauOf_congr (log : ℚ → ℚ) (rnd rnd' : Nat → ℚ) (m m' : Machine)
    (hp : m.pos = m'.pos) (he : m.edges = m'.edges) (hs : m.state = m'.state)
    (hd : cum m.edges m.state 7 ≠ 0 → rnd' m.pos = rnd m.pos) :
    tauOf log rnd' m' = tauOf log rnd m := by
  unfold tauOf holdingTime
  rw [← hp, ← he, ← hs]
  by_cases hT : cum m.edges m.state 7 = 0
  · rw [if_pos hT, if_pos hT]
  · rw [if_neg hT, if_neg hT]
    simp only [expsample, RND, hd hT]

/-- One iteration keeps two runs of the same trajectory together. -/
theorem sameRun_step (log : ℚ → ℚ) (rnd rnd' : Nat → ℚ) (n : Nat)
    (m0 m0' m m' m1 m1' : Machine) (brk brk' : Bool)
    (hlen : m.edges.length = 64) (hs : m.state < 8)
    (hsr : SameRun m0 m0' m m') (hord : m.samp1 ≠ -1 → m.samp1 ≤ m.samp2)
    (hd1 : cum m.edges m.state 7 ≠ 0 → rnd' m.pos = rnd m.pos)
    (hd2 : cum m.edges m.state 7 ≠ 0 → rnd' (m.pos + 1) = rnd (m.pos + 1))
    (hb : body log rnd n m = .ok (m1, brk)) (hb' : body log rnd' n m' = .ok (m1', brk')) :
    brk' = brk ∧ SameRun m0 m0' m1 m1' := by
  have hlen' : m'.edges.length = 64 := by rw [← hsr.edges_eq]; exact hlen
  have hs' : m'.state < 8 := by rw [← hsr.state_eq]; exact hs
  have htau := tauOf_congr log rnd rnd' m m' hsr.pos_eq hsr.edges_eq hsr.state_eq hd1
  obtain ⟨e1, _, _, e4, e5, e6, e7, e8, e9, e10, e11⟩ :=
    body_spec log rnd n m m1 brk hlen hs hb
  obtain ⟨f1, _, _, f4, f5, f6, f7, f8, f9, f10, f11⟩ :=
    body_spec log rnd' n m' m1' brk' hlen' hs' hb'
  obtain ⟨lines, times, ofp, ofp', oft, oft'⟩ := hsr.out_eq
  have q1 : m'.samp1 = m.samp1 := hsr.samp1_eq.symm
  have q2 : m'.samp2 = m.samp2 := hsr.samp2_eq.symm
  have q3 : m'.tc = m.tc := hsr.tc_eq.symm
  have q4 : m'.state = m.state := hsr.state_eq.symm
  have q5 : m'.edges = m.edges := hsr.edges_eq.symm
  have q6 : m'.pos = m.pos := hsr.pos_eq.symm
  simp only [htau, q1, q2, q3, q4, q5, q6] at f4 f5 f6 f7 f8 f9 f10 f11
  have hbrk : brk' = brk := by
    by_cases hT : cum m.edges m.state 7 = 0
    · rw [(e10 hT).1, (f10 hT).1]
    · rw [(e11 hT).1, (f11 hT).1]
  have hold1 : m1.samp1 = -1 → m1.oldstate = m1'.oldstate ∧ m1.oldsamp = m1'.oldsamp := by
    intro h1
    by_cases c1 : m.samp1 ≠ -1 ∧ m.tc + tauOf log rnd m > m.samp1
    · rw [if_pos c1] at e6 e7 f6 f7
      exact ⟨e6.trans f6.symm, e7.trans f7.symm⟩
    · rw [if_neg c1] at e4 e6 e7 f6 f7
      obtain ⟨o1, o2⟩ := hsr.old_eq (e4.symm.trans h1)
      exact ⟨e6.trans (o1.trans f6.symm), e7.trans (o2.trans f7.symm)⟩
  refine ⟨hbrk, ?_, ?_, ?_, ?_, e4.trans f4.symm, e5.trans f5.symm, hold1, ?_⟩
  · by_cases hT : cum m.edges m.state 7 = 0
    · rw [(e10 hT).2.2.2, (f10 hT).2.2.2]
    · rw [(e11 hT).2.2.1, (f11 hT).2.2.1]
  · exact e1.trans (hsr.edges_eq.trans f1.symm)
  · by_cases hT : cum m.edges m.state 7 = 0
    · rw [(e10 hT).2.1, (f10 hT).2.1, hsr.state_eq]
    · have h1 := (e11 hT).2.2.2
      have h2 := (f11 hT).2.2.2
      rw [hd2 hT, h1] at h2
      exact Except.ok.inj h2
  · by_cases hT : cum m.edges m.state 7 = 0
    · rw [(e10 hT).2.2.1, (f10 hT).2.2.1]
    · rw [(e11 hT).2.1, (f11 hT).2.1]
  · by_cases c2 : m.samp2 ≠ -1 ∧ m.tc + tauOf log rnd m > m.samp2
    · obtain ⟨os, ot, ho, hp, hfp, hft⟩ := e8 c2
      obtain ⟨os', ot', ho', hp', hfp', hft'⟩ := f8 c2
      have hres : m1.samp1 = -1 := by
        rw [e4]
        split_ifs with c1
        · rfl
        · by_contra hne
          exact c1 ⟨hne, lt_of_le_of_lt (hord hne) c2.2⟩
      obtain ⟨o1, o2⟩ := hold1 hres
      rw [ho, ho'] at o1
      rw [hp, hp'] at o2
      cases o1; cases o2
      refine ⟨lines ++ (outputstr [] (Int.ofNat os) ++ outputstr [] (Int.ofNat m.state)),
        times ++ [m.samp2 - ot], ?_, ?_, ?_, ?_⟩
      · rw [hfp, outputstr_append (outputstr m.fp _), outputstr_append m.fp, ofp]
        simp only [List.append_assoc]; rfl
      · rw [hfp', outputstr_append (outputstr m'.fp _), outputstr_append m'.fp, ofp']
        simp only [List.append_assoc]; rfl
      · rw [hft, oft, List.append_assoc]
      · rw [hft', oft', List.append_assoc]
    · obtain ⟨hfp, hft⟩ := e9 c2
      obtain ⟨hfp', hft'⟩ := f9 c2
      exact ⟨lines, times, hfp.trans ofp, hfp'.trans ofp', hft.trans oft, hft'.trans oft'⟩

/-- Two runs of a trajectory, from start machines with the same rate matrix and stream
position, on streams that agree on the positions the first run consumes, stay together:
the second run returns too, and it appends the same record. -/
theorem sameRun_final (log : ℚ → ℚ) (rnd rnd' : Nat → ℚ) (hrnd : UnitDraws rnd)
    (hrnd' : UnitDraws rnd') (n : Nat) (m0 m0' : Machine) (hlen : m0.edges.length = 64)
    (he : m0'.edges = m0.edges) (hp : m0'.pos = m0.pos) (fuel : Nat) (mf : Machine)
    (h : trajectory log rnd fuel n m0 = .ok mf)
    (hagree : ∀ p, m0.pos ≤ p → p < mf.pos → rnd' p = rnd p) :
    ∃ mf', trajectory log rnd' fuel n m0' = .ok mf' ∧ SameRun m0 m0' mf mf' := by
  have hlen2 : m0'.edges.length = 64 := by rw [he]; exact hlen
  obtain ⟨_, _, h12, _, ht1, ht2⟩ := deadlines_bounds rnd hrnd m0
  have hinv := heads_inv (R := fun _ _ => True) (fun _ => trivial) (fun _ _ _ _ _ => trivial)
    log rnd hrnd n m0 hlen (fun _ _ _ _ _ _ => trivial)
  have hpos := heads_pos log rnd hrnd n m0 hlen
  obtain ⟨K, mK, hK, hhead, hcase⟩ := (loop_ok_iff log rnd n fuel _ mf).1 h
  have hiK := hinv K mK hhead
  have hlenK : mK.edges.length = 64 := by rw [hiK.edges_eq]; exact hlen
  have hmfpos : mf.pos = m0.pos + 2 + 2 * K := by
    rcases hcase with ⟨_, rfl⟩ | ⟨_, hb⟩
    · exact hpos K _ hhead
    · have hT := (body_break_iff log rnd n mK mf true hlenK hiK.state_lt hb).1 rfl
      rw [((body_spec log rnd n mK mf true hlenK hiK.state_lt hb).2.2.2.2.2.2.2.2.2.1
        hT).2.2.2]
      exact hpos K mK hhead
  have hord : ∀ k mk, afterIters log rnd n k (initTrajectory rnd m0) = some mk →
      mk.samp1 ≠ -1 → mk.samp1 ≤ mk.samp2 := by
    intro k mk hk hne
    rcases (hinv k mk hk).stage with ⟨s1, s2, _⟩ | ⟨s1, _⟩ | ⟨s1, _⟩
    · rw [s1, s2]; exact h12
    · exact absurd s1 hne
    · exact absurd s1 hne
  have hsim : ∀ k mk, afterIters log rnd n k (initTrajectory rnd m0) = some mk → k ≤ K →
      ∃ mk', afterIters log rnd' n k (initTrajectory rnd' m0') = some mk' ∧
        SameRun m0 m0' mk mk' := by
    apply afterIters_induction log rnd n (initTrajectory rnd m0)
      (fun k mk => k ≤ K → ∃ mk', afterIters log rnd' n k (initTrajectory rnd' m0') = some mk' ∧
        SameRun m0 m0' mk mk')
    · intro _
      have a0 : rnd' m0.pos = rnd m0.pos := hagree _ (le_refl _) (by omega)
      have a1 : rnd' (m0.pos + 1) = rnd (m0.pos + 1) := hagree _ (by omega) (by omega)
      obtain ⟨_, _, _, _, e1, e2, _⟩ := initTrajectory_fields rnd m0
      obtain ⟨_, _, _, _, f1, f2, _⟩ := initTrajectory_fields rnd' m0'
      rw [hp, a0] at f1
      rw [hp, a0, a1] at f2
      refine ⟨_, rfl, ?_, he.symm, rfl, rfl, e1.trans f1.symm, e2.trans f2.symm, ?_, ?_⟩
      · show m0.pos + 2 = m0'.pos + 2
        rw [hp]
      · intro hres; exact absurd hres ht1
      · exact ⟨[], [], (List.append_nil _).symm, (List.append_nil _).symm,
          (List.append_nil _).symm, (List.append_nil _).symm⟩
    · intro k mk m1 hk ih hg hb hk1
      obtain ⟨mk', hk', hsr⟩ := ih (by omega)
      have hi := hinv k mk hk
      have hlenk : mk.edges.length = 64 := by rw [hi.edges_eq]; exact hlen
      have hpk := hpos k mk hk
      obtain ⟨m1', brk', hb'⟩ := heads_body_ok log rnd' hrnd' n m0' hlen2 k mk' hk'
      obtain ⟨hbrk, hsr1⟩ := sameRun_step log rnd rnd' n m0 m0' mk mk' m1 m1' false brk'
        hlenk hi.state_lt hsr (hord k mk hk)
        (fun _ => hagree _ (by omega) (by omega)) (fun _ => hagree _ (by omega) (by omega))
        hb hb'
      subst hbrk
      exact ⟨m1', (afterIters_succ_iff log rnd' n k _ m1').2
        ⟨mk', hk', by rw [← hsr.tc_eq]; exact hg, hb'⟩, hsr1⟩
  obtain ⟨mK', hhead', hsrK⟩ := hsim K mK hhead (le_refl K)
  rcases hcase with ⟨hg, rfl⟩ | ⟨hg, hb⟩
  · exact ⟨mK', (loop_ok_iff log rnd' n fuel _ mK').2
      ⟨K, mK', hK, hhead', Or.inl ⟨by rw [← hsrK.tc_eq]; exact hg, rfl⟩⟩, hsrK⟩
  · have hT := (body_break_iff log rnd n mK mf true hlenK hiK.state_lt hb).1 rfl
    obtain ⟨mf', brk', hb'⟩ := heads_body_ok log rnd' hrnd' n m0' hlen2 K mK' hhead'
    obtain ⟨hbrk, hsr1⟩ := sameRun_step log rnd rnd' n m0 m0' mK mK' mf mf' true brk'
      hlenK hiK.state_lt hsrK (hord K mK hhead)
      (fun hne => absurd hT hne) (fun hne => absurd hT hne) hb hb'
    subst hbrk
    exact ⟨mf', (loop_ok_iff log rnd' n fuel _ mf').2
      ⟨K, mK', hK, hhead', Or.inr ⟨by rw [← hsrK.tc_eq]; exact hg, hb'⟩⟩, hsr1⟩

/-- More fuel does not change what the loop returns. -/
theorem loop_mono (log : ℚ → ℚ) (rnd : Nat → ℚ) (n fuel fuel' : Nat) (m mf : Machine)
    (h : loop log rnd n fuel m = .ok mf) (hle : fuel ≤ fuel') :
    loop log rnd n fuel' m = .ok mf := by
  obtain ⟨k, mk, hk, hhead, hcase⟩ := (loop_ok_iff log rnd n fuel m mf).1 h
  exact (loop_ok_iff log rnd n fuel' m mf).2 ⟨k, mk, by omega, hhead, hcase⟩

theorem loop_det (log : ℚ → ℚ) (rnd : Nat → ℚ) (n fuel fuel' : Nat) (m a b : Machine)
    (ha : loop log rnd n fuel m = .ok a) (hb : loop log rnd n fuel' m = .ok b) : a = b := by
  have h1 := loop_mono log rnd n fuel (max fuel fuel') m a ha (le_max_left _ _)
  have h2 := loop_mono log rnd n fuel' (max fuel fuel') m b hb (le_max_right _ _)
  rw [h1] at h2
  exact Except.ok.inj h2

/-- What a run of trajectories returns does not depend on the fuel. -/
theorem trajectories_det (log : ℚ → ℚ) (rnd : Nat → ℚ) (fuel fuel' count : Nat) :
    ∀ (n : Nat) (m a b : Machine), trajectories log rnd fuel count n m = .ok a →
      trajectories log rnd fuel' count n m = .ok b → a = b := by
  induction count with
  | zero =>
    intro n m a b ha hb
    simp only [trajectories, Except.ok.injEq] at ha hb
    rw [← ha, ← hb]
  | succ count ih =>
    intro n m a b ha hb
    rw [trajectories] at ha hb
    cases h1 : trajectory log rnd fuel n m with
    | error e => rw [h1] at ha; cases ha
    | ok m1 =>
      cases h2 : trajectory log rnd fuel' n m with
      | error e => rw [h2] at hb; cases hb
      | ok m2 =>
        rw [h1] at ha; rw [h2] at hb
        have := loop_det log rnd n fuel fuel' _ m1 m2 h1 h2
        subst this
        exact ih (n + 1) m1 a b ha hb

/-- The second deadline is never resolved before the first, and when the two deadlines are
equal they are resolved together, by one iteration. -/
theorem resolved_order_step (log : ℚ → ℚ) (rnd : Nat → ℚ) (n : Nat) (m0 m m1 : Machine)
    (brk : Bool) (t1 t2 : ℚ) (hlen : m0.edges.length = 64)
    (hinv : TrajInv (fun _ _ => True) m0 t1 t2 m)
    (hP : m.samp1 = -1 → m.samp2 ≠ -1 → t1 < t2)
    (hb : body log rnd n m = .ok (m1, brk)) :
    m1.samp1 = -1 → m1.samp2 ≠ -1 → t1 < t2 := by
  have hlen' : m.edges.length = 64 := by rw [hinv.edges_eq]; exact hlen
  obtain ⟨_, _, _, e4, e5, _⟩ := body_spec log rnd n m m1 brk hlen' hinv.state_lt hb
  intro h1 h2
  have c2 : ¬ (m.samp2 ≠ -1 ∧ m.tc + tauOf log rnd m > m.samp2) := by
    intro c2; rw [if_pos c2] at e5; exact h2 e5
  rw [if_neg c2] at e5
  have hs2 : m.samp2 ≠ -1 := by rw [← e5]; exact h2
  by_cases hs1 : m.samp1 = -1
  · exact hP hs1 hs2
  · rcases hinv.stage with ⟨s1, s2, _⟩ | ⟨s1, _⟩ | ⟨s1, _⟩
    · have c1 : m.samp1 ≠ -1 ∧ m.tc + tauOf log rnd m > m.samp1 := by
        by_contra c1
        rw [if_neg c1] at e4
        exact hs1 (e4.symm.trans h1)
      have hle : m.tc + tauOf log rnd m ≤ m.samp2 := not_lt.1 (fun hc => c2 ⟨hs2, hc⟩)
      have := c1.2
      rw [s1] at this
      rw [s2] at hle
      linarith
    · exact absurd s1 hs1
    · exact absurd s1 hs1

/-- C12: in every trajectory (draws in `[0, 1)`), at every loop head and in the machine
returned, the second deadline is resolved only if the first is, and when `t1 = t2` the two
are resolved together; a trajectory fails only by running out of fuel, so `oldstate` and
`oldsamp` are never read unassigned. A second run of the trajectory, from any start machine
with the same rate matrix and stream position (whatever its `oldstate`, `oldsamp` and
files hold) and on any stream that agrees on the positions the first run consumes, returns
too, at the same position, and appends the same lines and the same time value. What `main`
returns does not depend on the fuel. -/
theorem C12_record_depends_on_trajectory_draws (log : ℚ → ℚ) (rnd : Nat → ℚ)
    (hrnd : UnitDraws rnd) (n : Nat) (m0 : Machine)
    (hm0 : m0.edges = (afterAssignment rnd).edges) :
    (∀ k mk, afterIters log rnd n k (initTrajectory rnd m0) = some mk →
      (mk.samp2 = -1 → mk.samp1 = -1) ∧
      ((initTrajectory rnd m0).samp1 = (initTrajectory rnd m0).samp2 →
        (mk.samp1 = -1 ↔ mk.samp2 = -1))) ∧
    (∀ fuel mf, trajectory log rnd fuel n m0 = .ok mf →
      (mf.samp2 = -1 → mf.samp1 = -1) ∧
      ((initTrajectory rnd m0).samp1 = (initTrajectory rnd m0).samp2 →
        (mf.samp1 = -1 ↔ mf.samp2 = -1))) ∧
    (∀ fuel e, trajectory log rnd fuel n m0 = .error e → e = Fault.outOfFuel) ∧
    (∀ (rnd' : Nat → ℚ) (m0' : Machine) (fuel : Nat) (mf : Machine), UnitDraws rnd' →
      m0'.edges = m0.edges → m0'.pos = m0.pos → trajectory log rnd fuel n m0 = .ok mf →
      (∀ p, m0.pos ≤ p → p < mf.pos → rnd' p = rnd p) →
      ∃ mf' lines times, trajectory log rnd' fuel n m0' = .ok mf' ∧ mf'.pos = mf.pos ∧
        mf.fp = m0.fp ++ lines ∧ mf'.fp = m0'.fp ++ lines ∧
        mf.fptime = m0.fptime ++ times ∧ mf'.fptime = m0'.fptime ++ times) ∧
    (∀ fuel fuel' a b, main log rnd fuel = .ok a → main log rnd fuel' = .ok b → a = b) := by
  have hE := cubeRates_of_main rnd hrnd m0 hm0
  obtain ⟨_, _, _, _, ht1, ht2⟩ := deadlines_bounds rnd hrnd m0
  have hinv := heads_inv (R := fun _ _ => True) (fun _ => trivial) (fun _ _ _ _ _ => trivial)
    log rnd hrnd n m0 hE.length_eq (fun _ _ _ _ _ _ => trivial)
  have hfin := final_inv (R := fun _ _ => True) (fun _ => trivial) (fun _ _ _ _ _ => trivial)
    log rnd hrnd n m0 hE.length_eq (fun _ _ _ _ _ _ => trivial)
  have hP : ∀ k mk, afterIters log rnd n k (initTrajectory rnd m0) = some mk →
      mk.samp1 = -1 → mk.samp2 ≠ -1 →
      (initTrajectory rnd m0).samp1 < (initTrajectory rnd m0).samp2 := by
    apply afterIters_induction
    · intro h1; exact absurd h1 ht1
    · intro k mk m1 hk ih _ hb
      exact resolved_order_step log rnd n m0 mk m1 false _ _ hE.length_eq (hinv k mk hk) ih hb
  have hPf : ∀ fuel mf, trajectory log rnd fuel n m0 = .ok mf →
      mf.samp1 = -1 → mf.samp2 ≠ -1 →
      (initTrajectory rnd m0).samp1 < (initTrajectory rnd m0).samp2 := by
    intro fuel mf h
    obtain ⟨k, mk, _, hk, hcase⟩ := (loop_ok_iff log rnd n fuel _ mf).1 h
    rcases hcase with ⟨_, rfl⟩ | ⟨_, hb⟩
    · exact hP k _ hk
    · exact resolved_order_step log rnd n m0 mk mf true _ _ hE.length_eq (hinv k mk hk)
        (hP k mk hk) hb
  have hord : ∀ m : Machine,
      TrajInv (fun _ _ => True) m0 (initTrajectory rnd m0).samp1
        (initTrajectory rnd m0).samp2 m →
      (m.samp1 = -1 → m.samp2 ≠ -1 →
        (initTrajectory rnd m0).samp1 < (initTrajectory rnd m0).samp2) →
      (m.samp2 = -1 → m.samp1 = -1) ∧
      ((initTrajectory rnd m0).samp1 = (initTrajectory rnd m0).samp2 →
        (m.samp1 = -1 ↔ m.samp2 = -1)) := by
    intro m hi hp
    have h21 : m.samp2 = -1 → m.samp1 = -1 := by
      intro h2
      rcases hi.stage with ⟨_, s2, _⟩ | ⟨_, s2, _⟩ | ⟨s1, _⟩
      · exact absurd (s2.symm.trans h2) ht2
      · exact absurd (s2.symm.trans h2) ht2
      · exact s1
    refine ⟨h21, fun heq => ⟨fun h1 => ?_, h21⟩⟩
    by_contra h2
    have := hp h1 h2
    rw [heq] at this
    exact lt_irrefl _ this
  refine ⟨fun k mk hk => hord mk (hinv k mk hk) (hP k mk hk),
    fun fuel mf h => hord mf (hfin fuel mf h) (hPf fuel mf h),
    trajectory_error_fuel log rnd hrnd n m0 hE.length_eq, ?_, ?_⟩
  · intro rnd' m0' fuel mf hrnd' he hp h hagree
    obtain ⟨mf', htr, hsr⟩ := sameRun_final log rnd rnd' hrnd hrnd' n m0 m0' hE.length_eq
      he hp fuel mf h hagree
    obtain ⟨lines, times, o1, o2, o3, o4⟩ := hsr.out_eq
    exact ⟨mf', lines, times, htr, hsr.pos_eq.symm, o1, o2, o3, o4⟩
  · intro fuel fuel' a b ha hb
    exact trajectories_det log rnd fuel fuel' 1000 0 _ a b ha hb

/-- C12 at the stream `halfStream`: the first trajectory run from the state of `main` and run
from `staleStart` appends the same record. -/
theorem C12_witness :
    ∃ mf mf' lines times,
      trajectory linLog halfStream 4 0 (afterAssignment halfStream) = .ok mf ∧
      trajectory linLog halfStream 4 0 staleStart = .ok mf' ∧ mf'.pos = mf.pos ∧
      mf.fp = [] ++ lines ∧ mf'.fp = ["1 0 1\n"] ++ lines ∧
      mf.fptime = [] ++ times ∧ mf'.fptime = [42] ++ times := by
  obtain ⟨mf, hmf⟩ := trajectory_terminates linLog halfStream unitDraws_halfStream 0
    (afterAssignment halfStream)
    (cubeRates_of_main halfStream unitDraws_halfStream _ rfl)
    (categoricalPositive_halfStream _ _ _)
  obtain ⟨mf', lines, times, h⟩ := (C12_record_depends_on_trajectory_draws linLog halfStream
    unitDraws_halfStream 0 (afterAssignment halfStream) rfl).2.2.2.1 halfStream staleStart 4 mf
    unitDraws_halfStream rfl rfl hmf (fun _ _ _ => rfl)
  exact ⟨mf, mf', lines, times, hmf, h⟩

end HardCube
